import Mathlib

/-!
Verification model of the `learning-lm-go` repository: a Go tensor runtime
for autoregressive transformer inference.  Go `uint32` arithmetic is
modelled by natural numbers reduced modulo 2^32 at every arithmetic
operation; Go panics (aborts) are modelled as `none` / a `halt` outcome,
and returned Go `error` values as `Except.error` / a `fail` outcome.
-/

namespace LMGo

/-- 2^32, the modulus of Go `uint32` arithmetic. -/
def U32MOD : Nat := 4294967296

/-- Reduce a natural number to its `uint32` value. -/
def u32 (n : Nat) : Nat := n % U32MOD

/-- `uint32` addition (wraps modulo 2^32). -/
def add32 (a b : Nat) : Nat := u32 (a + b)

/-- `uint32` multiplication (wraps modulo 2^32). -/
def mul32 (a b : Nat) : Nat := u32 (a * b)

theorem add32_eq (a b : Nat) (h : a + b < U32MOD) : add32 a b = a + b := by
  simp [add32, u32, Nat.mod_eq_of_lt h]

theorem mul32_eq (a b : Nat) (h : a * b < U32MOD) : mul32 a b = a * b := by
  simp [mul32, u32, Nat.mod_eq_of_lt h]

/-- Outcome of a Go call: a returned value, a returned `error` value, or a
runtime panic that aborts the process. -/
inductive GoResult (α : Type) where
  | ok : α → GoResult α
  | fail : String → GoResult α
  | halt : String → GoResult α
  deriving Repr, DecidableEq

/-! ## Tensor core (src/tensor/tensor.go) -/

/-- Model of `tensor.Tensor[T]`: flat buffer, shape, cached element count. -/
structure Tensor (α : Type) where
  data : List α
  shape : List Nat
  length : Nat
  deriving Repr, DecidableEq

/-- `calculateSize` from tensor.go: 0 for a rank-zero shape, otherwise the
product of the extents accumulated in `uint32` arithmetic. -/
def calculateSize (shape : List Nat) : Nat :=
  if shape = [] then 0 else shape.foldl (fun acc d => mul32 acc d) 1

/-- `NewTensor` from tensor.go: panics (`none`) when the buffer length
differs from `calculateSize shape`. -/
def NewTensor (data : List α) (shape : List Nat) : Option (Tensor α) :=
  let total := calculateSize shape
  if data.length = total then some ⟨data, shape, total⟩ else none

/-- `EmptyTensor` from tensor.go: allocates a zero-initialized buffer of
`calculateSize shape` elements (`z` is the Go zero value of the element
type). -/
def EmptyTensor (z : α) (shape : List Nat) : Tensor α :=
  ⟨List.replicate (calculateSize shape) z, shape, calculateSize shape⟩

/-- `Reshape` from tensor.go: panics (`none`) when the new shape's
`calculateSize` differs from the cached length; otherwise replaces only the
shape descriptor. -/
def Reshape (t : Tensor α) (newShape : List Nat) : Option (Tensor α) :=
  if calculateSize newShape = t.length then
    some { t with shape := newShape }
  else none

/-- The row-major offset accumulation of `At` (tensor.go), in `uint32`
arithmetic: `offset = offset*shape[i] + index[i]` at each step. -/
def atOffset (shape idx : List Nat) : Nat :=
  (List.zip shape idx).foldl (fun off p => add32 (mul32 off p.1) p.2) 0

/-- The ideal (unwrapped) row-major offset of the specification:
`((…(i0*d1+i1)*d2+i2)…)*d_n-1+i_n-1`. -/
def rowMajor (shape idx : List Nat) : Nat :=
  (List.zip shape idx).foldl (fun off p => off * p.1 + p.2) 0

/-- `At` from tensor.go: panics (`none`) when the index count mismatches
the rank or an index is out of its extent; the final buffer access panics
(`none`) when the accumulated offset falls outside the buffer. -/
def At (t : Tensor α) (idx : List Nat) : Option α :=
  if idx.length = t.shape.length ∧ ∀ p ∈ List.zip t.shape idx, p.2 < p.1 then
    t.data.get? (atOffset t.shape idx)
  else none

/-- `Slice` from tensor.go: a view of the buffer from `offset` under a new
shape; the bound check `offset+newSize > t.length` and the Go slice bounds
are in `uint32` arithmetic. -/
def Slice (t : Tensor α) (offset : Nat) (shape : List Nat) : Option (Tensor α) :=
  let newSize := calculateSize shape
  let hi := add32 offset newSize
  if hi > t.length then none
  else if offset > hi then none
  else some ⟨(t.data.drop offset).take (hi - offset), shape, newSize⟩

/-- For a nonempty shape, `calculateSize` is the product of the extents
reduced modulo 2^32. -/
theorem calculateSize_eq_prod_mod (shape : List Nat) (h : shape ≠ []) :
    calculateSize shape = shape.prod % U32MOD := by
  have key : ∀ (l : List Nat) (a : Nat),
      l.foldl (fun acc d => mul32 acc d) (a % U32MOD) = (a * l.prod) % U32MOD := by
    intro l
    induction l with
    | nil => intro a; simp
    | cons x xs ih =>
      intro a
      simp only [List.foldl_cons, List.prod_cons]
      have : mul32 (a % U32MOD) x = (a * x) % U32MOD := by
        simp [mul32, u32, Nat.mod_mul_mod]
      rw [this, ih (a * x), Nat.mul_assoc]
  have h1 : (1 : Nat) % U32MOD = 1 := by decide
  calc calculateSize shape = shape.foldl (fun acc d => mul32 acc d) 1 := by
        simp [calculateSize, h]
    _ = shape.foldl (fun acc d => mul32 acc d) (1 % U32MOD) := by rw [h1]
    _ = (1 * shape.prod) % U32MOD := key shape 1
    _ = shape.prod % U32MOD := by rw [Nat.one_mul]

theorem calculateSize_eq_prod (shape : List Nat) (h : shape ≠ [])
    (hlt : shape.prod < U32MOD) : calculateSize shape = shape.prod := by
  rw [calculateSize_eq_prod_mod shape h, Nat.mod_eq_of_lt hlt]

end LMGo

namespace LMGo

theorem prod_pos_of_zip (ds is : List Nat) (hlen : is.length = ds.length)
    (h : ∀ p ∈ List.zip ds is, p.2 < p.1) : 0 < ds.prod := by
  induction ds generalizing is with
  | nil => simp
  | cons d ds ih =>
    cases is with
    | nil => simp at hlen
    | cons i is =>
      simp only [List.length_cons, Nat.succ.injEq] at hlen
      simp only [List.prod_cons]
      have hd : i < d := h (d, i) (by simp [List.zip_cons_cons])
      have := ih is hlen (fun p hp => h p (by simp [List.zip_cons_cons, hp]))
      exact Nat.mul_pos (Nat.lt_of_le_of_lt (Nat.zero_le i) hd) this

theorem atOffset_go (shape : List Nat) : ∀ (idx : List Nat) (acc : Nat),
    idx.length = shape.length →
    (∀ p ∈ List.zip shape idx, p.2 < p.1) →
    (acc + 1) * shape.prod ≤ U32MOD →
    ((List.zip shape idx).foldl (fun off p => add32 (mul32 off p.1) p.2) acc
       = (List.zip shape idx).foldl (fun off p => off * p.1 + p.2) acc)
    ∧ (List.zip shape idx).foldl (fun off p => off * p.1 + p.2) acc
       < (acc + 1) * shape.prod := by
  induction shape with
  | nil =>
    intro idx acc _ _ _
    constructor
    · simp
    · simp
  | cons d ds ih =>
    intro idx acc hlen hin hb
    cases idx with
    | nil => simp at hlen
    | cons i is =>
      simp only [List.length_cons, Nat.succ.injEq] at hlen
      have hid : i < d := hin (d, i) (by simp [List.zip_cons_cons])
      have hin2 : ∀ p ∈ List.zip ds is, p.2 < p.1 :=
        fun p hp => hin p (by simp [List.zip_cons_cons, hp])
      have hdsprod : 0 < ds.prod := prod_pos_of_zip ds is hlen hin2
      have hstep : acc * d + i + 1 ≤ (acc + 1) * d := by nlinarith
      have hchain : (acc + 1) * d * ds.prod ≤ U32MOD := by
        have : (d :: ds).prod = d * ds.prod := List.prod_cons
        calc (acc + 1) * d * ds.prod = (acc + 1) * (d * ds.prod) := by ring
          _ = (acc + 1) * (d :: ds).prod := by rw [this]
          _ ≤ U32MOD := hb
      have hmul : mul32 acc d = acc * d := by
        apply mul32_eq
        have h1 : acc * d < (acc + 1) * d := by nlinarith [Nat.lt_of_le_of_lt (Nat.zero_le i) hid]
        have h2 : (acc + 1) * d ≤ (acc + 1) * d * ds.prod :=
          Nat.le_mul_of_pos_right _ hdsprod
        omega
      have hadd : add32 (acc * d) i = acc * d + i := by
        apply add32_eq
        have h2 : (acc + 1) * d ≤ (acc + 1) * d * ds.prod :=
          Nat.le_mul_of_pos_right _ hdsprod
        omega
      have hb2 : (acc * d + i + 1) * ds.prod ≤ U32MOD := by
        calc (acc * d + i + 1) * ds.prod ≤ (acc + 1) * d * ds.prod :=
              Nat.mul_le_mul_right _ hstep
          _ ≤ U32MOD := hchain
      obtain ⟨heq, hlt⟩ := ih is (acc * d + i) hlen hin2 hb2
      constructor
      · simp only [List.zip_cons_cons, List.foldl_cons, hmul, hadd]
        exact heq
      · simp only [List.zip_cons_cons, List.foldl_cons]
        calc (List.zip ds is).foldl (fun off p => off * p.1 + p.2) (acc * d + i)
            < (acc * d + i + 1) * ds.prod := hlt
          _ ≤ (acc + 1) * d * ds.prod := Nat.mul_le_mul_right _ hstep
          _ = (acc + 1) * (d :: ds).prod := by rw [List.prod_cons]; ring

/-- For in-range indices on a shape whose extent product does not overflow,
the `uint32` offset accumulation of `At` agrees with the ideal row-major
offset, and that offset lies below the extent product. -/
theorem atOffset_eq_rowMajor (shape idx : List Nat)
    (hlen : idx.length = shape.length)
    (hin : ∀ p ∈ List.zip shape idx, p.2 < p.1)
    (hb : shape.prod < U32MOD) :
    atOffset shape idx = rowMajor shape idx ∧ rowMajor shape idx < shape.prod := by
  have := atOffset_go shape idx 0 hlen hin (by simpa using Nat.le_of_lt hb)
  simpa [atOffset, rowMajor] using this

end LMGo

namespace LMGo

/-- C7 counterexample: the source computes sizes in 32-bit arithmetic, so
the shape [65536, 65536], whose extent product is 2^32, gets element count
0, and `NewTensor` accepts an empty buffer for it instead of aborting. -/
theorem C7_size_overflow_cex :
    calculateSize [65536, 65536] = 0
    ∧ (65536 : Nat) * 65536 ≠ 0
    ∧ (NewTensor ([] : List Int) [65536, 65536]).isSome = true := by
  refine ⟨by decide, by decide, by decide⟩

/-- C7 (amended): a tensor's element count equals the product of the
shape's extents reduced modulo 2^32 (sizes are 32-bit), except that a
rank-zero shape yields element count zero; `NewTensor` aborts iff the
buffer length differs from that count, and `EmptyTensor` allocates a
zero-value buffer of exactly that count. -/
theorem C7_size_contract {α : Type} (z : α) (data : List α) (shape : List Nat) :
    calculateSize ([] : List Nat) = 0
    ∧ (shape ≠ [] → calculateSize shape = shape.prod % U32MOD)
    ∧ ((NewTensor data shape).isSome ↔ data.length = calculateSize shape)
    ∧ (∀ t, NewTensor data shape = some t →
        t.data = data ∧ t.shape = shape ∧ t.length = calculateSize shape)
    ∧ (EmptyTensor z shape).data = List.replicate (calculateSize shape) z
    ∧ (EmptyTensor z shape).length = calculateSize shape := by
  refine ⟨by simp [calculateSize], fun h => calculateSize_eq_prod_mod shape h, ?_, ?_, rfl, rfl⟩
  · by_cases h : data.length = calculateSize shape <;> simp [NewTensor, h]
  · intro t ht
    by_cases h : data.length = calculateSize shape
    · simp only [NewTensor, h, if_pos] at ht
      cases ht
      exact ⟨rfl, rfl, rfl⟩
    · simp [NewTensor, h] at ht

/-- C8 counterexample: reshaping a 6-element tensor to the shape
[2, 2147483651], whose true element count 2·2147483651 differs from 6,
succeeds because the 32-bit size computation wraps to 6 — the claim says
such a reshape must abort. -/
theorem C8_reshape_overflow_cex :
    NewTensor ([10, 20, 30, 40, 50, 60] : List Int) [2, 3]
      = some ⟨[10, 20, 30, 40, 50, 60], [2, 3], 6⟩
    ∧ Reshape (⟨[10, 20, 30, 40, 50, 60], [2, 3], 6⟩ : Tensor Int) [2, 2147483651]
      = some ⟨[10, 20, 30, 40, 50, 60], [2, 2147483651], 6⟩
    ∧ (2 : Nat) * 2147483651 ≠ 6 := by
  refine ⟨by decide, by decide, by decide⟩

/-- C8 (amended): for every tensor and every new shape of the same element
count whose extent product does not overflow 32-bit arithmetic, `Reshape`
succeeds changing only the shape descriptor, and `At` at rank-many in-range
indices then reads exactly the buffer element at the row-major linear
offset of the new shape; `Reshape` to a shape whose (32-bit) element count
differs aborts. -/
theorem C8_reshape_at {α : Type} (t : Tensor α) (ns : List Nat)
    (hwf : t.data.length = t.length)
    (hsz : calculateSize ns = t.length)
    (hprod : ns.prod = t.length)
    (hlt : t.length < U32MOD) :
    ∃ t2, Reshape t ns = some t2
      ∧ t2.data = t.data ∧ t2.length = t.length ∧ t2.shape = ns
      ∧ (∀ idx, idx.length = ns.length →
          (∀ p ∈ List.zip ns idx, p.2 < p.1) →
          rowMajor ns idx < t.length
          ∧ At t2 idx = t.data.get? (rowMajor ns idx)
          ∧ (t.data.get? (rowMajor ns idx)).isSome = true)
      ∧ (∀ ns2, calculateSize ns2 ≠ t.length → Reshape t ns2 = none) := by
  refine ⟨{ t with shape := ns }, by simp [Reshape, hsz], rfl, rfl, rfl, ?_, ?_⟩
  · intro idx hl hin
    have hb : ns.prod < U32MOD := hprod ▸ hlt
    obtain ⟨heq, hlt2⟩ := atOffset_eq_rowMajor ns idx hl hin hb
    have hlt3 : rowMajor ns idx < t.length := hprod ▸ hlt2
    refine ⟨hlt3, ?_, ?_⟩
    · simp only [At]
      rw [if_pos ⟨hl, hin⟩]
      simp [heq]
    · rw [List.get?_eq_get (hwf ▸ hlt3)]
      simp
  · intro ns2 h2
    simp [Reshape, h2]

/-- Witness for C8: a concrete 2x3 tensor reshaped to 3x2. -/
theorem C8_reshape_at_witness :
    ∃ t2, Reshape (⟨[10, 20, 30, 40, 50, 60], [2, 3], 6⟩ : Tensor Int) [3, 2] = some t2
      ∧ t2.data = [10, 20, 30, 40, 50, 60] ∧ t2.length = 6 ∧ t2.shape = [3, 2]
      ∧ (∀ idx, idx.length = ([3, 2] : List Nat).length →
          (∀ p ∈ List.zip [3, 2] idx, p.2 < p.1) →
          rowMajor [3, 2] idx < 6
          ∧ At t2 idx = ([10, 20, 30, 40, 50, 60] : List Int).get? (rowMajor [3, 2] idx)
          ∧ (([10, 20, 30, 40, 50, 60] : List Int).get? (rowMajor [3, 2] idx)).isSome = true)
      ∧ (∀ ns2, calculateSize ns2 ≠ 6 →
          Reshape (⟨[10, 20, 30, 40, 50, 60], [2, 3], 6⟩ : Tensor Int) ns2 = none) :=
  C8_reshape_at ⟨[10, 20, 30, 40, 50, 60], [2, 3], 6⟩ [3, 2]
    (by decide) (by decide) (by decide) (by decide)

end LMGo

namespace LMGo

/-! ## Heap model of shared buffers (for views and the KV cache) -/

/-- A heap of numeric buffers; a buffer id is its index in the list. -/
structure Heap (α : Type) where
  bufs : List (List α)
  deriving Repr, DecidableEq

def Heap.getBuf (h : Heap α) (id : Nat) : List α := h.bufs.getD id []

/-- Allocate a fresh buffer; returns the new heap and the fresh id. -/
def Heap.alloc (h : Heap α) (buf : List α) : Heap α × Nat :=
  (⟨h.bufs ++ [buf]⟩, h.bufs.length)

/-- A tensor whose buffer lives in a heap: buffer id, start offset inside
the buffer, shape descriptor and cached element count; its data is
`heap[buf][off : off+length]`. -/
structure HTensor where
  buf : Nat
  off : Nat
  shape : List Nat
  length : Nat
  deriving Repr, DecidableEq

/-- The elements a heap tensor currently denotes. -/
def viewData (h : Heap α) (t : HTensor) : List α :=
  ((h.getBuf t.buf).drop t.off).take t.length

/-- `Slice` from tensor.go acting on a heap tensor: the returned view keeps
the same buffer id, moving the start offset — no element is copied. -/
def SliceH (t : HTensor) (offset : Nat) (shape : List Nat) : Option HTensor :=
  let newSize := calculateSize shape
  let hi := add32 offset newSize
  if hi > t.length then none
  else if offset > hi then none
  else some ⟨t.buf, t.off + offset, shape, newSize⟩

/-! ## KV cache (src/kvcache/kvcache.go) -/

/-- Model of `kvcache.KVCache[T]`. -/
structure KVCache where
  kCache : List HTensor
  vCache : List HTensor
  maxSeqLen : Nat
  dim : Nat
  length : Nat
  deriving Repr, DecidableEq

/-- The per-layer allocation loop of `NewKVCache`: for each layer allocate
an empty key tensor and an empty value tensor of shape
[maxSeqLen, dim]. -/
def allocLayers (h : Heap α) (z : α) (shape : List Nat) : Nat → Heap α × List HTensor × List HTensor
  | 0 => (h, [], [])
  | n + 1 =>
    let k := h.alloc (List.replicate (calculateSize shape) z)
    let v := k.1.alloc (List.replicate (calculateSize shape) z)
    let rest := allocLayers v.1 z shape n
    (rest.1,
     ⟨k.2, 0, shape, calculateSize shape⟩ :: rest.2.1,
     ⟨v.2, 0, shape, calculateSize shape⟩ :: rest.2.2)

/-- `NewKVCache` from kvcache.go. -/
def NewKVCache (h : Heap α) (z : α) (nLayers maxSeqLen dim initLen : Nat) :
    Heap α × Except String KVCache :=
  if nLayers = 0 ∨ maxSeqLen = 0 ∨ dim = 0 then
    (h, .error "invalid parameters: all values must be positive except initLen which can be zero")
  else if initLen > maxSeqLen then
    (h, .error "initial length exceeds maximum sequence length")
  else
    let a := allocLayers h z [maxSeqLen, dim] nLayers
    (a.1, .ok ⟨a.2.1, a.2.2, maxSeqLen, dim, initLen⟩)

/-- `KCache` from kvcache.go: error when the layer or the start row is out
of range, otherwise a `Slice` view of the layer's key buffer from row
`start` to the current logical length. -/
def KCache (c : KVCache) (layer start : Nat) : GoResult HTensor :=
  if layer ≥ c.kCache.length then .fail "layer index out of range"
  else if start ≥ c.length then .fail "start index out of range"
  else
    match SliceH (c.kCache.getD layer ⟨0, 0, [], 0⟩) (mul32 start c.dim) [c.length - start, c.dim] with
    | none => .halt "slice out of range"
    | some v => .ok v

/-- `VCache` from kvcache.go, symmetric to `KCache` on the value buffers. -/
def VCache (c : KVCache) (layer start : Nat) : GoResult HTensor :=
  if layer ≥ c.vCache.length then .fail "layer index out of range"
  else if start ≥ c.length then .fail "start index out of range"
  else
    match SliceH (c.vCache.getD layer ⟨0, 0, [], 0⟩) (mul32 start c.dim) [c.length - start, c.dim] with
    | none => .halt "slice out of range"
    | some v => .ok v

/-- `Increment` from kvcache.go: the capacity check and the length update
are `uint32` arithmetic. -/
def Increment (c : KVCache) (seqLen : Nat) : Except String KVCache :=
  if add32 c.length seqLen > c.maxSeqLen then
    .error "increment would exceed maximum cache capacity"
  else .ok { c with length := add32 c.length seqLen }

/-- Wellformedness of a cache as `NewKVCache` builds it: every layer tensor
is a whole view of a buffer of maxSeqLen*dim elements, the logical length
is within capacity, the buffer size does not overflow 32 bits, and the
dimension is positive. -/
def CacheWF (h : Heap α) (c : KVCache) : Prop :=
  (∀ t ∈ c.kCache ++ c.vCache, t.off = 0 ∧ t.shape = [c.maxSeqLen, c.dim]
      ∧ t.length = c.maxSeqLen * c.dim
      ∧ (h.getBuf t.buf).length = c.maxSeqLen * c.dim)
  ∧ c.length ≤ c.maxSeqLen ∧ c.maxSeqLen * c.dim < U32MOD ∧ 0 < c.dim

end LMGo

namespace LMGo

theorem cacheSliceOk {α : Type} (h : Heap α) (c : KVCache) (hwf : CacheWF h c)
    (t : HTensor) (ht : t ∈ c.kCache ++ c.vCache) (start : Nat)
    (hstart : start < c.length) :
    SliceH t (mul32 start c.dim) [c.length - start, c.dim]
      = some ⟨t.buf, t.off + start * c.dim, [c.length - start, c.dim],
              (c.length - start) * c.dim⟩ := by
  obtain ⟨hlayers, hlen, hsz, hdim⟩ := hwf
  obtain ⟨-, -, htlen, -⟩ := hlayers t ht
  have hstartle : start ≤ c.maxSeqLen := le_trans (Nat.le_of_lt hstart) hlen
  have hsub : (c.length - start) + start = c.length := Nat.sub_add_cancel (Nat.le_of_lt hstart)
  have hprod : (c.length - start) * c.dim + start * c.dim = c.length * c.dim := by
    rw [← Nat.add_mul, hsub]
  have hmax : c.length * c.dim ≤ c.maxSeqLen * c.dim := Nat.mul_le_mul_right _ hlen
  have hofs : mul32 start c.dim = start * c.dim := by
    apply mul32_eq
    have : start * c.dim ≤ c.maxSeqLen * c.dim := Nat.mul_le_mul_right _ hstartle
    omega
  have hcs : calculateSize [c.length - start, c.dim] = (c.length - start) * c.dim := by
    rw [calculateSize_eq_prod _ (by simp)]
    · simp [List.prod_cons]
    · simp only [List.prod_cons, List.prod_nil, Nat.mul_one]
      omega
  have hadd : add32 (start * c.dim) ((c.length - start) * c.dim)
      = c.length * c.dim := by
    rw [add32_eq]
    · omega
    · omega
  simp only [SliceH, hofs, hcs, hadd, htlen]
  rw [if_neg (by omega), if_neg (by omega)]

/-- C6: `KCache` and `VCache` return an error iff the layer index or the
start row is out of range; on success the returned view shares the layer's
preallocated buffer (same buffer id, no copy, no heap change possible —
they allocate nothing), covers rows `start` up to the current logical
length and has shape [length − start, dim]. -/
theorem C6_cache_views {α : Type} (h : Heap α) (c : KVCache) (hwf : CacheWF h c)
    (layer start : Nat) :
    (layer < c.kCache.length ∧ start < c.length →
      KCache c layer start
        = .ok ⟨(c.kCache.getD layer ⟨0, 0, [], 0⟩).buf, start * c.dim,
               [c.length - start, c.dim], (c.length - start) * c.dim⟩
      ∧ viewData h ⟨(c.kCache.getD layer ⟨0, 0, [], 0⟩).buf, start * c.dim,
               [c.length - start, c.dim], (c.length - start) * c.dim⟩
        = ((h.getBuf (c.kCache.getD layer ⟨0, 0, [], 0⟩).buf).drop
            (start * c.dim)).take ((c.length - start) * c.dim))
    ∧ (layer < c.vCache.length ∧ start < c.length →
      VCache c layer start
        = .ok ⟨(c.vCache.getD layer ⟨0, 0, [], 0⟩).buf, start * c.dim,
               [c.length - start, c.dim], (c.length - start) * c.dim⟩)
    ∧ (layer ≥ c.kCache.length ∨ start ≥ c.length →
        (∃ m, KCache c layer start = .fail m))
    ∧ (layer ≥ c.vCache.length ∨ start ≥ c.length →
        (∃ m, VCache c layer start = .fail m)) := by
  have hk : ∀ hl : layer < c.kCache.length,
      c.kCache.getD layer ⟨0, 0, [], 0⟩ ∈ c.kCache ++ c.vCache := by
    intro hl
    rw [List.getD_eq_get _ _ hl]
    exact List.mem_append_left _ (List.get_mem _ _ _)
  have hv : ∀ hl : layer < c.vCache.length,
      c.vCache.getD layer ⟨0, 0, [], 0⟩ ∈ c.kCache ++ c.vCache := by
    intro hl
    rw [List.getD_eq_get _ _ hl]
    exact List.mem_append_right _ (List.get_mem _ _ _)
  refine ⟨?_, ?_, ?_, ?_⟩
  · rintro ⟨hl, hs⟩
    have hmem := hk hl
    have hoff : (c.kCache.getD layer ⟨0, 0, [], 0⟩).off = 0 :=
      (hwf.1 _ hmem).1
    have := cacheSliceOk h c hwf _ hmem start hs
    constructor
    · simp only [KCache]
      rw [if_neg (by omega), if_neg (by omega), this]
      rw [hoff]
      simp
    · simp [viewData]
  · rintro ⟨hl, hs⟩
    have hmem := hv hl
    have hoff : (c.vCache.getD layer ⟨0, 0, [], 0⟩).off = 0 :=
      (hwf.1 _ hmem).1
    have := cacheSliceOk h c hwf _ hmem start hs
    simp only [VCache]
    rw [if_neg (by omega), if_neg (by omega), this]
    rw [hoff]
    simp
  · intro hcase
    simp only [KCache]
    rcases Nat.lt_or_ge layer c.kCache.length with hlt | hge
    · rw [if_neg (by omega), if_pos (by omega)]
      exact ⟨_, rfl⟩
    · rw [if_pos (by omega)]
      exact ⟨_, rfl⟩
  · intro hcase
    simp only [VCache]
    rcases Nat.lt_or_ge layer c.vCache.length with hlt | hge
    · rw [if_neg (by omega), if_pos (by omega)]
      exact ⟨_, rfl⟩
    · rw [if_pos (by omega)]
      exact ⟨_, rfl⟩

end LMGo

namespace LMGo

/-- Concrete heap for the C6 witness: two 2-element buffers. -/
def heapC6 : Heap Int := ⟨[[7, 8], [9, 10]]⟩

/-- Concrete KV cache for the C6 witness: one layer, maxSeqLen 2, dim 1,
logical length 1. -/
def cacheC6 : KVCache := ⟨[⟨0, 0, [2, 1], 2⟩], [⟨1, 0, [2, 1], 2⟩], 2, 1, 1⟩

/-- Witness for C6 at layer 0, start 0 of a concrete cache. -/
theorem C6_cache_views_witness :
    (0 < cacheC6.kCache.length ∧ 0 < cacheC6.length →
      KCache cacheC6 0 0
        = .ok ⟨(cacheC6.kCache.getD 0 ⟨0, 0, [], 0⟩).buf, 0 * cacheC6.dim,
               [cacheC6.length - 0, cacheC6.dim], (cacheC6.length - 0) * cacheC6.dim⟩
      ∧ viewData heapC6 ⟨(cacheC6.kCache.getD 0 ⟨0, 0, [], 0⟩).buf, 0 * cacheC6.dim,
               [cacheC6.length - 0, cacheC6.dim], (cacheC6.length - 0) * cacheC6.dim⟩
        = ((heapC6.getBuf (cacheC6.kCache.getD 0 ⟨0, 0, [], 0⟩).buf).drop
            (0 * cacheC6.dim)).take ((cacheC6.length - 0) * cacheC6.dim))
    ∧ (0 < cacheC6.vCache.length ∧ 0 < cacheC6.length →
      VCache cacheC6 0 0
        = .ok ⟨(cacheC6.vCache.getD 0 ⟨0, 0, [], 0⟩).buf, 0 * cacheC6.dim,
               [cacheC6.length - 0, cacheC6.dim], (cacheC6.length - 0) * cacheC6.dim⟩)
    ∧ (0 ≥ cacheC6.kCache.length ∨ 0 ≥ cacheC6.length →
        (∃ m, KCache cacheC6 0 0 = .fail m))
    ∧ (0 ≥ cacheC6.vCache.length ∨ 0 ≥ cacheC6.length →
        (∃ m, VCache cacheC6 0 0 = .fail m)) :=
  C6_cache_views heapC6 cacheC6 (by unfold CacheWF; decide) 0 0

/-- C5 counterexample: `Increment` adds in 32-bit arithmetic, so on a cache
of capacity 10 and logical length 5 an increment of 4294967295 wraps to 4:
no error is reported although 5 + 4294967295 exceeds 10, and the logical
length decreases from 5 to 4. -/
theorem C5_increment_overflow_cex :
    Increment ⟨[], [], 10, 1, 5⟩ 4294967295 = .ok ⟨[], [], 10, 1, 4⟩
    ∧ 5 + 4294967295 > 10
    ∧ (4 : Nat) < 5 := by
  refine ⟨?_, by norm_num, by norm_num⟩
  rfl

/-- C5 (amended): for every increment amount whose sum with the current
length does not overflow 32-bit arithmetic, `Increment` errors exactly when
length + N would exceed maxSeqLen (the cache value is untouched then, the
model being functional), succeeds otherwise with the length increased by
exactly N, and never changes the capacity nor decreases the length. -/
theorem C5_increment (c : KVCache) (n : Nat) (hof : c.length + n < U32MOD) :
    (c.length + n > c.maxSeqLen →
      Increment c n = .error "increment would exceed maximum cache capacity")
    ∧ (c.length + n ≤ c.maxSeqLen →
      Increment c n = .ok { c with length := c.length + n })
    ∧ (∀ c2, Increment c n = .ok c2 →
        c2.maxSeqLen = c.maxSeqLen ∧ c2.dim = c.dim ∧ c2.kCache = c.kCache
        ∧ c2.vCache = c.vCache ∧ c2.length = c.length + n ∧ c.length ≤ c2.length) := by
  have ha : add32 c.length n = c.length + n := add32_eq _ _ hof
  refine ⟨?_, ?_, ?_⟩
  · intro hgt
    have hc : add32 c.length n > c.maxSeqLen := by omega
    simp only [Increment, if_pos hc]
  · intro hle
    have hc : ¬ add32 c.length n > c.maxSeqLen := by omega
    simp only [Increment, if_neg hc, ha]
    rw [if_neg (Nat.not_lt.mpr hle)]
  · intro c2 h2
    by_cases hgt : add32 c.length n > c.maxSeqLen
    · simp only [Increment, if_pos hgt] at h2
      cases h2
    · simp only [Increment, if_neg hgt] at h2
      cases h2
      refine ⟨rfl, rfl, rfl, rfl, ha, ?_⟩
      show c.length ≤ add32 c.length n
      omega

/-- Witness for C5 on a concrete cache of capacity 10, length 5, N = 3. -/
theorem C5_increment_witness :
    ((5 : Nat) + 3 > 10 →
      Increment ⟨[], [], 10, 1, 5⟩ 3 = .error "increment would exceed maximum cache capacity")
    ∧ ((5 : Nat) + 3 ≤ 10 →
      Increment ⟨[], [], 10, 1, 5⟩ 3 = .ok ⟨[], [], 10, 1, 5 + 3⟩)
    ∧ (∀ c2, Increment ⟨[], [], 10, 1, 5⟩ 3 = .ok c2 →
        c2.maxSeqLen = 10 ∧ c2.dim = 1 ∧ c2.kCache = []
        ∧ c2.vCache = [] ∧ c2.length = 5 + 3 ∧ 5 ≤ c2.length) :=
  C5_increment ⟨[], [], 10, 1, 5⟩ 3 (by norm_num [U32MOD])

/-- C9: the start-row bound of the cache views is strict — `start = length`
is rejected even though it would denote an empty in-range view; on a cache
of logical length 0 (as `NewKVCache` builds with initLen 0) every view
request fails, and `Increment 0` leaves the length at 0. -/
theorem C9_start_bound_strict (c : KVCache) (hu : c.length < U32MOD) :
    (∀ layer, layer < c.kCache.length →
      KCache c layer c.length = .fail "start index out of range")
    ∧ (∀ layer, layer < c.vCache.length →
      VCache c layer c.length = .fail "start index out of range")
    ∧ (c.length = 0 → ∀ layer start,
        (∃ m, KCache c layer start = .fail m)
        ∧ (∃ m, VCache c layer start = .fail m))
    ∧ (∀ c2, Increment c 0 = .ok c2 → c2.length = c.length)
    ∧ (∀ (h : Heap Int) (z : Int) (nL mS d : Nat) (h2 : Heap Int) (c2 : KVCache),
        NewKVCache h z nL mS d 0 = (h2, .ok c2) → c2.length = 0) := by
  refine ⟨?_, ?_, ?_, ?_, ?_⟩
  · intro layer hl
    simp only [KCache]
    rw [if_neg (by omega), if_pos (by omega)]
  · intro layer hl
    simp only [VCache]
    rw [if_neg (by omega), if_pos (by omega)]
  · intro h0 layer start
    constructor
    · simp only [KCache]
      rcases Nat.lt_or_ge layer c.kCache.length with hlt | hge
      · rw [if_neg (by omega), if_pos (by omega)]
        exact ⟨_, rfl⟩
      · rw [if_pos (by omega)]
        exact ⟨_, rfl⟩
    · simp only [VCache]
      rcases Nat.lt_or_ge layer c.vCache.length with hlt | hge
      · rw [if_neg (by omega), if_pos (by omega)]
        exact ⟨_, rfl⟩
      · rw [if_pos (by omega)]
        exact ⟨_, rfl⟩
  · intro c2 h2
    have ha : add32 c.length 0 = c.length := add32_eq _ _ (by omega)
    simp only [Increment, ha] at h2
    by_cases hgt : c.length > c.maxSeqLen
    · rw [if_pos hgt] at h2
      cases h2
    · rw [if_neg hgt] at h2
      cases h2
      rfl
  · intro h z nL mS d h2 c2 hnew
    simp only [NewKVCache] at hnew
    by_cases h1 : nL = 0 ∨ mS = 0 ∨ d = 0
    · rw [if_pos h1] at hnew
      cases hnew
    · rw [if_neg h1] at hnew
      rw [if_neg (by omega)] at hnew
      cases hnew
      rfl

/-- Witness for C9 on a concrete fresh cache of logical length 0. -/
theorem C9_start_bound_strict_witness :
    (∀ layer, layer < ([⟨0, 0, [2, 1], 2⟩] : List HTensor).length →
      KCache ⟨[⟨0, 0, [2, 1], 2⟩], [⟨1, 0, [2, 1], 2⟩], 2, 1, 0⟩ layer 0
        = .fail "start index out of range")
    ∧ (∀ layer, layer < ([⟨1, 0, [2, 1], 2⟩] : List HTensor).length →
      VCache ⟨[⟨0, 0, [2, 1], 2⟩], [⟨1, 0, [2, 1], 2⟩], 2, 1, 0⟩ layer 0
        = .fail "start index out of range")
    ∧ ((0 : Nat) = 0 → ∀ layer start,
        (∃ m, KCache ⟨[⟨0, 0, [2, 1], 2⟩], [⟨1, 0, [2, 1], 2⟩], 2, 1, 0⟩ layer start = .fail m)
        ∧ (∃ m, VCache ⟨[⟨0, 0, [2, 1], 2⟩], [⟨1, 0, [2, 1], 2⟩], 2, 1, 0⟩ layer start = .fail m))
    ∧ (∀ c2, Increment ⟨[⟨0, 0, [2, 1], 2⟩], [⟨1, 0, [2, 1], 2⟩], 2, 1, 0⟩ 0 = .ok c2 →
        c2.length = 0)
    ∧ (∀ (h : Heap Int) (z : Int) (nL mS d : Nat) (h2 : Heap Int) (c2 : KVCache),
        NewKVCache h z nL mS d 0 = (h2, .ok c2) → c2.length = 0) :=
  C9_start_bound_strict ⟨[⟨0, 0, [2, 1], 2⟩], [⟨1, 0, [2, 1], 2⟩], 2, 1, 0⟩ (by norm_num [U32MOD])

end LMGo

namespace LMGo

/-! ## Decode loop and forward-pass cache path (src/model/model.go) -/

/-- The greedy arg-max scan of `Generate` (model.go:84-91): start with
index 0 and `logits[0]`, replace on strict improvement. -/
def argmaxGo [LinearOrder α] : List α → α → Nat → Nat → Nat
  | [], _, _, best => best
  | x :: xs, m, i, best =>
    if m < x then argmaxGo xs x (i + 1) i else argmaxGo xs m (i + 1) best

/-- Arg-max of a logits vector as `Generate` computes it (the Go code reads
`logits.Data()[0]` first, so the empty case is unreachable for a model with
a positive vocabulary). -/
def argmaxIdx [LinearOrder α] (logits : List α) : Nat :=
  match logits with
  | [] => 0
  | x :: xs => argmaxGo xs x 1 0

/-- The fixed decode loop of `Generate` (model.go:80-95), iterating `fuel`
times from step number `i`: each step asks the forward pass for logits
(abstracted as the oracle `fwd` from the step number; `none` models a
run-time panic inside `Forward`, which has no error return in Go), then
appends the greedy arg-max.  No stopping condition other than the fixed
iteration count exists in the source. -/
def GenerateSteps [LinearOrder α] (fwd : Nat → Option (List α)) :
    Nat → Nat → List Nat → Option (List Nat)
  | _, 0, acc => some acc
  | i, fuel + 1, acc =>
    match fwd i with
    | none => none
    | some logits => GenerateSteps fwd (i + 1) fuel (acc ++ [argmaxIdx logits])

/-- `Generate` (model.go:66-97): create a fresh KV cache (`NewKVCache`
rejects a zero layer count, capacity or dimension — that error is returned
to the caller), then run exactly `n = 50` decode steps.  The parameters
`maxLen`, `top_p`, `top_k`, `temperature` and the configured
`Config.EosTokenID` are accepted but never consulted by the source. -/
def Generate [LinearOrder α] (nLayers maxSeqLen dim : Nat)
    (fwd : Nat → Option (List α)) (tokens : List Nat) (maxLen : Nat)
    (topP : α) (topK : Nat) (temperature : α) (eosTokenID : Nat) :
    GoResult (List Nat) :=
  if nLayers = 0 ∨ maxSeqLen = 0 ∨ dim = 0 then
    .fail "failed to create cache"
  else
    match GenerateSteps fwd 0 50 tokens with
    | none => .halt "run-time panic inside Forward"
    | some s => .ok s

/-- The cache interactions of one layer of `Forward` (model.go:126-146),
`dim = NKVH*DQKV`: take full-length key/value views (a returned error is
`panic`ked on, model.go:128/133), reslice their backing arrays to
`[pastSeqLen*dim : totalSeqLen*dim]` for the row copy (the backing buffer
holds `maxSeqLen*dim` elements, its Go capacity, so the reslice panics
beyond that), then `Reshape` both views to `[totalSeqLen, NKVH, DQKV]`
(tensor.go `Reshape` panics when that count differs from the view's
length).  The numeric kernels of the layer return no error values in Go
and never touch the cache state, so they are elided. -/
def ForwardLayerCacheOps (c : KVCache) (totalSeqLen : Nat) (layer : Nat) :
    GoResult Unit :=
  match KCache c layer 0 with
  | .fail m => .halt m
  | .halt m => .halt m
  | .ok fullK =>
    match VCache c layer 0 with
    | .fail m => .halt m
    | .halt m => .halt m
    | .ok fullV =>
      if mul32 totalSeqLen c.dim > mul32 c.maxSeqLen c.dim then
        .halt "slice bounds out of range"
      else if mul32 totalSeqLen c.dim ≠ fullK.length then
        .halt "new shape does not match the length of the tensor"
      else if mul32 totalSeqLen c.dim ≠ fullV.length then
        .halt "new shape does not match the length of the tensor"
      else .ok ()

/-- The per-layer loop of `Forward` (model.go:109-168) over layers
`i, i+1, …` with `rem` layers remaining. -/
def forwardLayers (c : KVCache) (totalSeqLen : Nat) : Nat → Nat → GoResult Unit
  | _, 0 => .ok ()
  | i, rem + 1 =>
    match ForwardLayerCacheOps c totalSeqLen i with
    | .ok _ => forwardLayers c totalSeqLen (i + 1) rem
    | .fail m => .fail m
    | .halt m => .halt m

/-- The cache path of `Forward` (model.go:99-181): read the past length,
call `Increment` DISCARDING its error (model.go:102 ignores the return
value), compute `totalSeqLen = seqLen + pastSeqLen`, then run the layer
loop.  `Forward`'s Go signature returns only a tensor — there is no error
return — so the only non-`ok` outcome is a run-time panic. -/
def ForwardCachePath (c : KVCache) (seqLen : Nat) (nLayers : Nat) :
    GoResult KVCache :=
  let pastSeqLen := c.length
  let c1 := match Increment c seqLen with
    | .ok c2 => c2
    | .error _ => c
  let totalSeqLen := add32 seqLen pastSeqLen
  match forwardLayers c1 totalSeqLen 0 nLayers with
  | .ok _ => .ok c1
  | .fail m => .fail m
  | .halt m => .halt m

/-- Concrete full cache for C2: one layer, capacity 1, dim 1, length 1. -/
def cacheC2 : KVCache := ⟨[⟨0, 0, [1, 1], 1⟩], [⟨1, 0, [1, 1], 1⟩], 1, 1, 1⟩

/-- C1: `Generate` ignores both the maximum token count and the
end-of-sequence token id.  With a vocabulary whose arg-max is always token
0 (= the EOS id passed in), the output holds 50 generated tokens for every
`maxLen` — in particular for `maxLen = 1` — and keeps generating 49 tokens
past the first emitted EOS. -/
theorem C1_generate_ignores_limits :
    (∀ maxLen : Nat,
      Generate 1 4 2 (fun _ => some [(1 : Int), 0]) [5] maxLen 0 0 0 0
        = .ok ([5] ++ List.replicate 50 0))
    ∧ (List.replicate 50 0 : List Nat).length = 50
    ∧ ¬ (50 ≤ 1)
    ∧ ([5] ++ List.replicate 50 0 : List Nat).get? 1 = some 0 := by
  refine ⟨fun maxLen => rfl, by decide, by decide, by decide⟩

/-- C2: on cache exhaustion `Forward` does not propagate the error —
`Increment` does report the exhaustion as an error value, but `Forward`
discards it (model.go:102) and then panics at the out-of-capacity cache
copy; `Generate`'s loop receives no error from `Forward` (its Go type has
none) and a forward-pass panic crashes the whole call, so no partial
output is returned. -/
theorem C2_forward_swallows_cache_error :
    Increment cacheC2 1 = .error "increment would exceed maximum cache capacity"
    ∧ ForwardCachePath cacheC2 1 1 = .halt "slice bounds out of range"
    ∧ (∀ m, ForwardCachePath cacheC2 1 1 ≠ .fail m)
    ∧ Generate (α := Int) 1 1 1 (fun _ => none) [5] 10 0 0 0 0
        = .halt "run-time panic inside Forward" := by
  refine ⟨rfl, rfl, ?_, rfl⟩
  intro m
  intro hcontra
  have : GoResult.halt (α := KVCache) "slice bounds out of range" = .fail m := by
    rw [← hcontra]
    rfl
  cases this

end LMGo

namespace LMGo

/-! ## Allocating kernels (Gather, RMSNorm, MatMulTransB) over the heap.
Tensor descriptors are immutable values in this model; all mutable state
lives in the heap, so a kernel can change an input only by writing to its
buffer. -/

/-- Apply a list of (offset, value) writes to a buffer in loop order. -/
def applyWrites (buf : List α) : List (Nat × α) → List α
  | [] => buf
  | w :: ws => applyWrites (buf.set w.1 w.2) ws

/-- Perform writes inside one heap buffer. -/
def Heap.write (h : Heap α) (id : Nat) (ws : List (Nat × α)) : Heap α :=
  ⟨h.bufs.set id (applyWrites (h.getBuf id) ws)⟩

theorem getBuf_write_ne (h : Heap α) (id j : Nat) (ws : List (Nat × α))
    (hj : j ≠ id) : (h.write id ws).getBuf j = h.getBuf j := by
  simp only [Heap.write, Heap.getBuf, List.getD]
  rw [List.get?_set_ne _ _ (Ne.symm hj)]

theorem getBuf_alloc_lt (h : Heap α) (buf : List α) (j : Nat)
    (hj : j < h.bufs.length) : (h.alloc buf).1.getBuf j = h.getBuf j := by
  simp only [Heap.alloc, Heap.getBuf, List.getD, List.get?_eq_getElem?]
  rw [List.getElem?_append_left hj]

/-- `Gather` (operators, part_001:9-26): input rank 2 `[rows, cols]`,
index tensor rank 1; allocates a fresh `EmptyTensor [len(indices), cols]`
and copies input row `indices[i]` into output row `i`.  The guard is the
Go reslice bound `(indices[i]+1)*cols ≤ len(input.data)` whose violation
panics (`none`).  The index tensor lives in a separate `Nat` heap that the
kernel only reads (and which it does not return, so cannot change). -/
def GatherH (hf : Heap α) (z : α) (hi : Heap Nat) (input ixs : HTensor) :
    Option (Heap α × HTensor) :=
  if input.shape.length ≠ 2 then none
  else if ixs.shape.length ≠ 1 then none
  else
    let cols := input.shape.getD 1 0
    let src := viewData hf input
    let ixData := viewData hi ixs
    if ¬ ∀ ix ∈ ixData, mul32 (add32 ix 1) cols ≤ src.length then none
    else
      let n := ixData.length
      let outShape : List Nat := [n, cols]
      let alloc := hf.alloc (List.replicate (calculateSize outShape) z)
      let ws := (List.range n).flatMap (fun i =>
        (List.range cols).map (fun j =>
          (mul32 i cols + j, src.getD (mul32 (ixData.getD i 0) cols + j) z)))
      some (alloc.1.write alloc.2 ws, ⟨alloc.2, 0, outShape, calculateSize outShape⟩)

/-- `RMSNorm` (operators, part_001:116-151): input rank ≥ 1, weight rank
exactly 1 matching the last extent; allocates a fresh `EmptyTensor` of the
input's shape and writes `w[i] * x[off] / sqrt(mean + eps)` row by row.
`sq` abstracts `math.Sqrt`; a zero last extent makes the Go batch division
panic (`none`). -/
def RMSNormH [Field α] (hf : Heap α) (sq : α → α) (x w : HTensor) (eps : α) :
    Option (Heap α × HTensor) :=
  if x.shape.length < 1 then none
  else if w.shape.length ≠ 1 then none
  else if x.shape.getD (x.shape.length - 1) 0 ≠ w.shape.getD 0 0 then none
  else
    let d := x.shape.getD (x.shape.length - 1) 0
    if d = 0 then none
    else
      let batch := x.length / d
      let xd := viewData hf x
      let wd := viewData hf w
      let alloc := hf.alloc (List.replicate (calculateSize x.shape) (0 : α))
      let ws := (List.range batch).flatMap (fun b =>
        let base := mul32 b d
        let ssq := ((List.range d).map
          (fun k => xd.getD (base + k) 0 * xd.getD (base + k) 0)).foldl (· + ·) 0
        let res := sq (ssq / (d : α) + eps)
        (List.range d).map (fun i =>
          (base + i, wd.getD i 0 * xd.getD (base + i) 0 / res)))
      some (alloc.1.write alloc.2 ws, ⟨alloc.2, 0, x.shape, calculateSize x.shape⟩)

/-- `MatMulTransB` (operators, part_001:213-249): `a` of rank ≥ 2 with
contraction extent `K` last, `b` of rank exactly 2 shaped `[N, K]`; builds
a fresh `na*nb` buffer of `A·Bᵗ` entries and wraps it with `NewTensor`
(whose length check failing panics, `none`); a zero `K` makes the Go row
division panic (`none`). -/
def MatMulTransBH [CommRing α] (hf : Heap α) (a b : HTensor) :
    Option (Heap α × HTensor) :=
  if a.shape.length < 2 then none
  else if b.shape.length ≠ 2 then none
  else
    let ka := a.shape.getD (a.shape.length - 1) 0
    let kb := b.shape.getD 1 0
    if ka ≠ kb then none
    else if ka = 0 then none
    else
      let na := a.length / ka
      let nb := b.length / kb
      let ad := viewData hf a
      let bd := viewData hf b
      let outShape := a.shape.dropLast ++ [nb]
      if mul32 na nb ≠ calculateSize outShape then none
      else
        let alloc := hf.alloc (List.replicate (mul32 na nb) (0 : α))
        let ws := (List.range na).flatMap (fun i =>
          (List.range nb).map (fun j =>
            (mul32 i nb + j,
             ((List.range ka).map
               (fun k => ad.getD (mul32 i ka + k) 0 * bd.getD (mul32 j kb + k) 0)).foldl
               (· + ·) 0)))
        some (alloc.1.write alloc.2 ws, ⟨alloc.2, 0, outShape, calculateSize outShape⟩)

end LMGo

namespace LMGo

theorem frame_alloc_write {α : Type} (hf : Heap α) (buf : List α)
    (ws : List (Nat × α)) (j : Nat) (hj : j < hf.bufs.length) :
    ((hf.alloc buf).1.write (hf.alloc buf).2 ws).getBuf j = hf.getBuf j := by
  have h1 : (hf.alloc buf).2 = hf.bufs.length := rfl
  rw [h1, getBuf_write_ne _ _ _ _ (Nat.ne_of_lt hj), getBuf_alloc_lt _ _ _ hj]

/-- C10: each of the allocating kernels writes only into a freshly
allocated buffer: whenever a call returns, the output tensor's buffer id is
the fresh id (one past every pre-existing buffer), every pre-existing
buffer — hence the data of every input tensor, weight and index tensor
included — is unchanged, and the output buffer aliases no input buffer.
The index tensor of `Gather` lives in a heap the kernel does not even
return, so it cannot be written at all; tensor shape/length descriptors
are immutable values in this model. -/
theorem C10_fresh_output_frame {α : Type} [Field α] (hf : Heap α)
    (hi : Heap Nat) (z : α) (sq : α → α) (eps : α)
    (input ixs x w a b : HTensor) :
    (∀ h2 out, GatherH hf z hi input ixs = some (h2, out) →
      out.buf = hf.bufs.length
      ∧ (∀ j, j < hf.bufs.length → h2.getBuf j = hf.getBuf j)
      ∧ (input.buf < hf.bufs.length →
          out.buf ≠ input.buf ∧ viewData h2 input = viewData hf input))
    ∧ (∀ h2 out, RMSNormH hf sq x w eps = some (h2, out) →
      out.buf = hf.bufs.length
      ∧ (∀ j, j < hf.bufs.length → h2.getBuf j = hf.getBuf j)
      ∧ (x.buf < hf.bufs.length →
          out.buf ≠ x.buf ∧ viewData h2 x = viewData hf x)
      ∧ (w.buf < hf.bufs.length →
          out.buf ≠ w.buf ∧ viewData h2 w = viewData hf w))
    ∧ (∀ h2 out, MatMulTransBH hf a b = some (h2, out) →
      out.buf = hf.bufs.length
      ∧ (∀ j, j < hf.bufs.length → h2.getBuf j = hf.getBuf j)
      ∧ (a.buf < hf.bufs.length →
          out.buf ≠ a.buf ∧ viewData h2 a = viewData hf a)
      ∧ (b.buf < hf.bufs.length →
          out.buf ≠ b.buf ∧ viewData h2 b = viewData hf b)) := by
  refine ⟨?_, ?_, ?_⟩
  · intro h2 out heq
    simp only [GatherH] at heq
    split at heq
    · cases heq
    split at heq
    · cases heq
    split at heq
    · cases heq
    simp only [Option.some.injEq, Prod.mk.injEq] at heq
    obtain ⟨hh, ho⟩ := heq
    subst hh
    subst ho
    refine ⟨rfl, fun j hj => frame_alloc_write hf _ _ j hj, fun hin => ?_⟩
    refine ⟨Nat.ne_of_gt hin, ?_⟩
    simp only [viewData]
    rw [frame_alloc_write hf _ _ _ hin]
  · intro h2 out heq
    simp only [RMSNormH] at heq
    split at heq
    · cases heq
    split at heq
    · cases heq
    split at heq
    · cases heq
    split at heq
    · cases heq
    simp only [Option.some.injEq, Prod.mk.injEq] at heq
    obtain ⟨hh, ho⟩ := heq
    subst hh
    subst ho
    refine ⟨rfl, fun j hj => frame_alloc_write hf _ _ j hj, fun hin => ?_, fun hin => ?_⟩
    · refine ⟨Nat.ne_of_gt hin, ?_⟩
      simp only [viewData]
      rw [frame_alloc_write hf _ _ _ hin]
    · refine ⟨Nat.ne_of_gt hin, ?_⟩
      simp only [viewData]
      rw [frame_alloc_write hf _ _ _ hin]
  · intro h2 out heq
    simp only [MatMulTransBH] at heq
    split at heq
    · cases heq
    split at heq
    · cases heq
    split at heq
    · cases heq
    split at heq
    · cases heq
    split at heq
    · cases heq
    simp only [Option.some.injEq, Prod.mk.injEq] at heq
    obtain ⟨hh, ho⟩ := heq
    subst hh
    subst ho
    refine ⟨rfl, fun j hj => frame_alloc_write hf _ _ j hj, fun hin => ?_, fun hin => ?_⟩
    · refine ⟨Nat.ne_of_gt hin, ?_⟩
      simp only [viewData]
      rw [frame_alloc_write hf _ _ _ hin]
    · refine ⟨Nat.ne_of_gt hin, ?_⟩
      simp only [viewData]
      rw [frame_alloc_write hf _ _ _ hin]

end LMGo

namespace LMGo

/-- Witness for C10: concrete valid calls of the three kernels (the Gather
one is the spec's own example: indices [1,0,2,1] over [[1,2],[3,4],[5,6]]).
Each allocates buffer id `bufs.length`, leaves the pre-existing buffers
unchanged, and the output aliases no input buffer. -/
theorem C10_fresh_output_frame_witness :
    GatherH (α := Int) ⟨[[1, 2, 3, 4, 5, 6]]⟩ 0 ⟨[[1, 0, 2, 1]]⟩
        ⟨0, 0, [3, 2], 6⟩ ⟨0, 0, [4], 4⟩
      = some (⟨[[1, 2, 3, 4, 5, 6], [3, 4, 1, 2, 5, 6, 3, 4]]⟩, ⟨1, 0, [4, 2], 8⟩)
    ∧ (∃ h2 out, RMSNormH (α := ℚ) ⟨[[1, 2, 3, 4], [1, 2]]⟩ (fun v => v)
        ⟨0, 0, [2, 2], 4⟩ ⟨1, 0, [2], 2⟩ 0 = some (h2, out)
        ∧ out.buf = 2 ∧ out.buf ≠ 0 ∧ out.buf ≠ 1
        ∧ h2.getBuf 0 = [1, 2, 3, 4] ∧ h2.getBuf 1 = [1, 2])
    ∧ MatMulTransBH (α := Int) ⟨[[1, 2, 3, 4], [1, 0, 0, 1]]⟩
        ⟨0, 0, [2, 2], 4⟩ ⟨1, 0, [2, 2], 4⟩
      = some (⟨[[1, 2, 3, 4], [1, 0, 0, 1], [1, 2, 3, 4]]⟩, ⟨2, 0, [2, 2], 4⟩) := by
  refine ⟨by decide, ?_, by decide⟩
  have hs : (RMSNormH (α := ℚ) ⟨[[1, 2, 3, 4], [1, 2]]⟩ (fun v => v)
      ⟨0, 0, [2, 2], 4⟩ ⟨1, 0, [2], 2⟩ 0).isSome = true := by decide
  obtain ⟨p, hp⟩ := Option.isSome_iff_exists.mp hs
  have hfacts := ((C10_fresh_output_frame (α := ℚ) ⟨[[1, 2, 3, 4], [1, 2]]⟩ ⟨[]⟩ 0
      (fun v => v) 0 ⟨0, 0, [], 0⟩ ⟨0, 0, [], 0⟩ ⟨0, 0, [2, 2], 4⟩ ⟨1, 0, [2], 2⟩
      ⟨0, 0, [], 0⟩ ⟨0, 0, [], 0⟩).2.1) p.1 p.2 (by rw [hp])
  refine ⟨p.1, p.2, by rw [hp], hfacts.1, ?_, ?_, ?_, ?_⟩
  · rw [hfacts.1]; decide
  · rw [hfacts.1]; decide
  · rw [hfacts.2.1 0 (by decide)]
    decide
  · rw [hfacts.2.1 1 (by decide)]
    decide
end LMGo

namespace LMGo

/-! ## Chunked-list access lemmas -/

theorem length_bind_const {β : Type} (B L : Nat) (f : Nat → List β)
    (hf : ∀ x, x < B → (f x).length = L) :
    ((List.range B).flatMap f).length = B * L := by
  induction B with
  | zero => simp
  | succ n ih =>
    rw [List.range_succ, List.append_bind, List.length_append,
      ih (fun x hx => hf x (Nat.lt_succ_of_lt hx))]
    simp [hf n (Nat.lt_succ_self n), Nat.succ_mul]

theorem getD_bind_const {β : Type} (B L : Nat) (f : Nat → List β)
    (hf : ∀ x, x < B → (f x).length = L) (b r : Nat) (hb : b < B) (hr : r < L)
    (d0 : β) :
    ((List.range B).flatMap f).getD (b * L + r) d0 = (f b).getD r d0 := by
  induction B with
  | zero => omega
  | succ n ih =>
    rw [List.range_succ, List.append_bind]
    have hlen : ((List.range n).flatMap f).length = n * L :=
      length_bind_const n L f (fun x hx => hf x (Nat.lt_succ_of_lt hx))
    rcases Nat.lt_or_ge b n with hbn | hbn
    · rw [List.getD_append]
      · exact ih (fun x hx => hf x (Nat.lt_succ_of_lt hx)) hbn
      · rw [hlen]
        calc b * L + r < b * L + L := by omega
          _ = (b + 1) * L := by ring
          _ ≤ n * L := Nat.mul_le_mul_right _ (by omega)
    · have hbeq : b = n := by omega
      subst hbeq
      rw [List.getD_append_right]
      · rw [hlen, Nat.add_sub_cancel_left]
        simp
      · omega

theorem getD_map_range {β : Type} (n j : Nat) (g : Nat → β) (hj : j < n) (d0 : β) :
    ((List.range n).map g).getD j d0 = g j := by
  rw [List.getD, List.get?_map, List.get?_eq_getElem?, List.getElem?_range hj]
  rfl

theorem foldl_add_range_eq_sum {α : Type} [AddCommMonoid α] (f : Nat → α) (n : Nat) :
    ((List.range n).map f).foldl (· + ·) 0 = ∑ d ∈ Finset.range n, f d := by
  induction n with
  | zero => simp
  | succ m ih =>
    rw [List.range_succ, List.map_append, List.foldl_append, ih,
      Finset.sum_range_succ]
    simp

/-! ## Grouped-query attention QK kernel (part_001:255-310) -/

/-- `GroupAttnQK`: rank/dimension validation is reported as error values;
the Go modulo `hq % hk` panics when `hk = 0` (integer divide by zero); on
the success path every cell `attn[h*n1*n2 + i*n2 + j]` of the fresh output
gets `(Σ_d q[(i*hq+h)*D+d] · k[(j*hk+h/m)*D+d]) * factor` with
`factor = 1/sq(D)`, `m = hq/hk`, `sq` abstracting `math.Sqrt`.  The Go
in-loop guard `hPrime >= hk` (an error value) is modelled by the `any`
test; the theorem shows it never fires.  Element reads use `getD` with
default 0; the success theorem's wellformedness hypotheses keep every read
in range, exactly where the Go reads do not panic.  Index arithmetic is
below 2^32 for any materializable tensor, so it is written in plain
naturals. -/
def GroupAttnQK [Field α] (sq : α → α) (q k : Tensor α) : GoResult (Tensor α) :=
  if q.shape.length ≠ 3 then .fail "q must be a 3D tensor"
  else if k.shape.length ≠ 3 then .fail "k must be a 3D tensor"
  else
    let n1 := q.shape.getD 0 0
    let hq := q.shape.getD 1 0
    let dq := q.shape.getD 2 0
    let n2 := k.shape.getD 0 0
    let hk := k.shape.getD 1 0
    let dk := k.shape.getD 2 0
    let factor := 1 / sq (dq : α)
    if dq ≠ dk then .fail "q and k must have the same last dimension"
    else if hk = 0 then .halt "integer divide by zero"
    else if hq % hk ≠ 0 then
      .fail "q head count must be a multiple of k head count"
    else
      let m := hq / hk
      if (List.range hq).any (fun h => decide (hk ≤ h / m)) then
        .fail "invalid hPrime"
      else
        let attnData := (List.range hq).flatMap (fun h =>
          (List.range n1).flatMap (fun i =>
            (List.range n2).map (fun j =>
              (((List.range dq).map (fun d =>
                q.data.getD (i * hq * dq + h * dq + d) 0
                  * k.data.getD (j * hk * dk + h / m * dk + d) 0)).foldl (· + ·) 0)
                * factor)))
        .ok ⟨attnData, [hq, n1, n2], calculateSize [hq, n1, n2]⟩

end LMGo

namespace LMGo

/-- C4 counterexample: with `hk = 0` (key tensor of shape [1,0,1], a valid
rank-3 empty tensor) and `hq = 1`, `hq` is not an integer multiple of `hk`,
yet `GroupAttnQK` does not return an error value: the Go `hq % hk` is an
integer division by zero, a run-time panic. -/
theorem C4_hk_zero_cex :
    GroupAttnQK (α := ℚ) (fun v => v) ⟨[1], [1, 1, 1], 1⟩ ⟨[], [1, 0, 1], 0⟩
      = .halt "integer divide by zero"
    ∧ (∀ e, GroupAttnQK (α := ℚ) (fun v => v) ⟨[1], [1, 1, 1], 1⟩ ⟨[], [1, 0, 1], 0⟩
        ≠ .fail e)
    ∧ ¬ ∃ mm : Nat, 1 = mm * 0 := by
  refine ⟨rfl, ?_, ?_⟩
  · intro e hcon
    have h0 : GoResult.halt (α := Tensor ℚ) "integer divide by zero"
        = GoResult.fail e := by rw [← hcon]; rfl
    cases h0
  · rintro ⟨mm, hmm⟩
    omega

/-- C4 (amended): for key head counts `hk ≥ 1`, `GroupAttnQK` returns a
descriptive error value (not an abort) when an argument is not rank 3,
when the last dimensions differ, or when `hq` is not a multiple of `hk`;
otherwise (buffer lengths matching the shapes, as for any tensor the
constructors build) it returns a tensor of shape [hq, n1, n2] with
`attn[h,i,j] = (1/sqrt D) * Σ_d q[i,h,d]·k[j,h/m,d]`, `m = hq/hk`, under
row-major addressing.  When `hk = 0` the call aborts instead (divide by
zero), which is what the counterexample forces the claim to exclude. -/
theorem C4_group_attn_qk {α : Type} [Field α] (sq : α → α) (q k : Tensor α) :
    (q.shape.length ≠ 3 ∨ k.shape.length ≠ 3 →
      ∃ e, GroupAttnQK sq q k = .fail e)
    ∧ (∀ n1 hq D n2 hk D2, q.shape = [n1, hq, D] → k.shape = [n2, hk, D2] →
        D ≠ D2 → ∃ e, GroupAttnQK sq q k = .fail e)
    ∧ (∀ n1 hq D n2 hk, q.shape = [n1, hq, D] → k.shape = [n2, hk, D] →
        0 < hk → hq % hk ≠ 0 → ∃ e, GroupAttnQK sq q k = .fail e)
    ∧ (∀ n1 hq D n2 hk, q.shape = [n1, hq, D] → k.shape = [n2, hk, D] →
        0 < hk → hq % hk = 0 →
        q.data.length = n1 * hq * D → k.data.length = n2 * hk * D →
        ∃ t, GroupAttnQK sq q k = .ok t
          ∧ t.shape = [hq, n1, n2]
          ∧ t.data.length = hq * (n1 * n2)
          ∧ ∀ h i j, h < hq → i < n1 → j < n2 →
              t.data.getD (h * n1 * n2 + i * n2 + j) 0
                = 1 / sq (D : α)
                  * ∑ d ∈ Finset.range D,
                      q.data.getD ((i * hq + h) * D + d) 0
                        * k.data.getD ((j * hk + h / (hq / hk)) * D + d) 0) := by
  refine ⟨?_, ?_, ?_, ?_⟩
  · intro hr
    simp only [GroupAttnQK]
    rcases Decidable.em (q.shape.length = 3) with hq3 | hq3
    · rw [if_neg (by omega)]
      rw [if_pos (by omega)]
      exact ⟨_, rfl⟩
    · rw [if_pos (by omega)]
      exact ⟨_, rfl⟩
  · intro n1 hq D n2 hk D2 hqs hks hne
    simp only [GroupAttnQK, hqs, hks]
    simp only [List.length_cons, List.length_nil, List.getD_cons_zero,
      List.getD_cons_succ]
    rw [if_neg (by omega), if_neg (by omega), if_pos hne]
    exact ⟨_, rfl⟩
  · intro n1 hq D n2 hk hqs hks hkpos hmod
    simp only [GroupAttnQK, hqs, hks]
    simp only [List.length_cons, List.length_nil, List.getD_cons_zero,
      List.getD_cons_succ]
    rw [if_neg (by omega), if_neg (by omega), if_neg (by omega),
      if_neg (by omega), if_pos hmod]
    exact ⟨_, rfl⟩
  · intro n1 hq D n2 hk hqs hks hkpos hmod hql hkl
    simp only [GroupAttnQK, hqs, hks]
    simp only [List.length_cons, List.length_nil, List.getD_cons_zero,
      List.getD_cons_succ]
    rw [if_neg (by omega), if_neg (by omega), if_neg (by omega),
      if_neg (by omega), if_neg (by omega)]
    · rw [if_neg ?hany]
      case hany =>
        intro hany
        rw [List.any_eq_true] at hany
        obtain ⟨h, hmem, hdec⟩ := hany
        rw [List.mem_range] at hmem
        rw [decide_eq_true_iff] at hdec
        have hfac : hk * (hq / hk) = hq := Nat.mul_div_cancel' (Nat.dvd_of_mod_eq_zero hmod)
        have hfac2 : hq / hk * hk = hq := by rw [Nat.mul_comm]; exact hfac
        have hmpos : 0 < hq / hk := by
          rcases Nat.eq_zero_or_pos (hq / hk) with h0 | h0
          · rw [h0, Nat.mul_zero] at hfac
            omega
          · exact h0
        have := (Nat.div_lt_iff_lt_mul hmpos).mpr (by omega : h < hk * (hq / hk))
        omega
      refine ⟨_, rfl, rfl, ?_, ?_⟩
      · apply length_bind_const
        intro h hh
        apply length_bind_const
        intro i hi
        simp
      · intro h i j hh hi hj
        have hidx : h * n1 * n2 + i * n2 + j = h * (n1 * n2) + (i * n2 + j) := by
          ring
        rw [hidx]
        rw [getD_bind_const hq (n1 * n2) _
          (fun x hx => length_bind_const n1 n2 _ (fun y hy => by simp)) h
          (i * n2 + j) hh (by nlinarith) 0]
        rw [getD_bind_const n1 n2 _ (fun y hy => by simp) i j hi hj 0]
        rw [getD_map_range n2 j _ hj 0]
        rw [foldl_add_range_eq_sum]
        rw [mul_comm]
        congr 1
        apply Finset.sum_congr rfl
        intro d _
        have e1 : i * hq * D + h * D + d = (i * hq + h) * D + d := by ring
        have e2 : j * hk * D + h / (hq / hk) * D + d
            = (j * hk + h / (hq / hk)) * D + d := by ring
        rw [e1, e2]

end LMGo

namespace LMGo

/-- Witness for C4: the success branch at a concrete q of shape [1,2,1] and
k of shape [1,1,1]. -/
theorem C4_group_attn_qk_witness :
    ∃ t, GroupAttnQK (α := ℚ) (fun v => v) ⟨[1, 2], [1, 2, 1], 2⟩ ⟨[3], [1, 1, 1], 1⟩
        = .ok t
      ∧ t.shape = [2, 1, 1]
      ∧ t.data.length = 2 * (1 * 1)
      ∧ ∀ h i j, h < 2 → i < 1 → j < 1 →
          t.data.getD (h * 1 * 1 + i * 1 + j) 0
            = 1 / ((1 : Nat) : ℚ)
              * ∑ d ∈ Finset.range 1,
                  ([1, 2] : List ℚ).getD ((i * 2 + h) * 1 + d) 0
                    * ([3] : List ℚ).getD ((j * 1 + h / (2 / 1)) * 1 + d) 0 :=
  (C4_group_attn_qk (fun v => v) ⟨[1, 2], [1, 2, 1], 2⟩ ⟨[3], [1, 1, 1], 1⟩).2.2.2
    1 2 1 1 1 rfl rfl (by decide) (by decide) (by decide) (by decide)

end LMGo

namespace LMGo

/-! ## MaskedSoftmax (src/tensor/operators.go:102-145, part_001:56-103) -/

/-- Valid-range boundary of row `i`: `totalSeqLen - seqLen + i + 1` (the
`uint32` subtraction is guarded by the `seqLen ≤ totalSeqLen` check). -/
def rowBoundary (seqLen totalSeqLen i : Nat) : Nat :=
  totalSeqLen - seqLen + i + 1

/-- One row of `MaskedSoftmax`: scan the valid prefix for its maximum
starting from `data[offset]`, exponentiate the shifted values, normalize by
the running sum, zero every column at or beyond the boundary.  `e`
abstracts `math.Exp`. -/
def softmaxRow [Field α] [LinearOrder α] (e : α → α) (row : List α) (b : Nat) :
    List α :=
  let m := (row.take b).foldl (fun acc c => if acc < c then c else acc) (row.headD 0)
  let exps := (row.take b).map (fun v => e (v - m))
  let s := exps.foldl (· + ·) 0
  exps.map (fun v => v / s) ++ List.replicate (row.length - b) 0

/-- The per-batch row loop of `MaskedSoftmax`. -/
def processBatch [Field α] [LinearOrder α] (e : α → α)
    (seqLen totalSeqLen : Nat) (bd : List α) : List α :=
  (List.range seqLen).flatMap (fun i =>
    softmaxRow e ((bd.drop (i * totalSeqLen)).take totalSeqLen)
      (rowBoundary seqLen totalSeqLen i))

/-- `MaskedSoftmax`: panics (`none`) when the rank is below 2, when
`seqLen > totalSeqLen`, or — the Go batch division by zero — when
`seqLen*totalSeqLen = 0`; otherwise rewrites the first
`batch*seqLen*totalSeqLen` elements row by row in place and leaves any
trailing elements untouched. -/
def MaskedSoftmax [Field α] [LinearOrder α] (e : α → α) (t : Tensor α) :
    Option (Tensor α) :=
  let nd := t.shape.length
  if nd < 2 then none
  else
    let seqLen := t.shape.getD (nd - 2) 0
    let totalSeqLen := t.shape.getD (nd - 1) 0
    if seqLen > totalSeqLen then none
    else if seqLen * totalSeqLen = 0 then none
    else
      let batch := t.length / (seqLen * totalSeqLen)
      let newData :=
        (List.range batch).flatMap (fun bi =>
          processBatch e seqLen totalSeqLen
            ((t.data.drop (bi * (seqLen * totalSeqLen))).take (seqLen * totalSeqLen)))
        ++ t.data.drop (batch * (seqLen * totalSeqLen))
      some { t with data := newData }

theorem step_eq_max {α : Type} [LinearOrder α] (a c : α) :
    (if a < c then c else a) = max a c := by
  rcases lt_or_ge a c with h | h
  · rw [if_pos h, max_eq_right (le_of_lt h)]
  · rw [if_neg (not_lt_of_ge h), max_eq_left h]

theorem foldl_max_facts {α : Type} [LinearOrder α] (l : List α) : ∀ (x0 : α),
    x0 ≤ l.foldl max x0 ∧ (∀ y ∈ l, y ≤ l.foldl max x0)
    ∧ (l.foldl max x0 = x0 ∨ l.foldl max x0 ∈ l) := by
  induction l with
  | nil => intro x0; exact ⟨le_refl _, by simp, Or.inl rfl⟩
  | cons c cs ih =>
    intro x0
    obtain ⟨h1, h2, h3⟩ := ih (max x0 c)
    simp only [List.foldl_cons]
    refine ⟨le_trans (le_max_left _ _) h1, ?_, ?_⟩
    · intro y hy
      rcases List.mem_cons.mp hy with hy | hy
      · subst hy
        exact le_trans (le_max_right _ _) h1
      · exact h2 y hy
    · rcases h3 with h3 | h3
      · rcases max_choice x0 c with hc | hc
        · exact Or.inl (h3.trans hc)
        · exact Or.inr (List.mem_cons.mpr (Or.inl (h3.trans hc)))
      · exact Or.inr (List.mem_cons.mpr (Or.inr h3))

theorem foldl_add_init {M : Type} [AddCommMonoid M] (l : List M) : ∀ (a : M),
    l.foldl (· + ·) a = a + l.sum := by
  induction l with
  | nil => intro a; simp
  | cons x xs ih =>
    intro a
    simp only [List.foldl_cons, List.sum_cons, ih (a + x), add_assoc]

theorem map_sum_eq_range_sum {β M : Type} [AddCommMonoid M] (l : List β)
    (g : β → M) (d : β) :
    (l.map g).sum = ∑ j ∈ Finset.range l.length, g (l.getD j d) := by
  induction l with
  | nil => simp
  | cons x xs ih =>
    simp only [List.map_cons, List.sum_cons, List.length_cons]
    rw [Finset.sum_range_succ']
    simp only [List.getD_cons_succ, List.getD_cons_zero]
    rw [← ih]
    exact (add_comm _ _)

end LMGo

namespace LMGo

theorem getD_map_lt {β γ : Type} (l : List β) (f : β → γ) (j : Nat)
    (hj : j < l.length) (d : β) (d2 : γ) :
    (l.map f).getD j d2 = f (l.getD j d) := by
  rw [List.getD, List.getD, List.get?_map]
  cases hx : l.get? j with
  | none =>
    rw [List.get?_eq_getElem?] at hx
    rw [List.getElem?_eq_none_iff] at hx
    omega
  | some v => simp

theorem getD_replicate_self {γ : Type} (k i : Nat) (v : γ) :
    (List.replicate k v).getD i v = v := by
  rw [List.getD]
  cases hx : (List.replicate k v).get? i with
  | none => rfl
  | some w =>
    have hw : w ∈ List.replicate k v := List.get?_mem hx
    rw [List.eq_of_mem_replicate hw]
    rfl

theorem softmaxRow_length {α : Type} [Field α] [LinearOrder α] (e : α → α)
    (row : List α) (b : Nat) (hbl : b ≤ row.length) :
    (softmaxRow e row b).length = row.length := by
  simp only [softmaxRow, List.length_append, List.length_map, List.length_take,
    List.length_replicate]
  omega

/-- Full behaviour of one `MaskedSoftmax` row over the reals: zeros at and
beyond the boundary, and the valid prefix is the shifted-by-the-maximum
softmax of the original values, summing to 1. -/
theorem softmaxRow_spec (row : List ℝ) (b : Nat) (hb1 : 1 ≤ b)
    (hbl : b ≤ row.length) :
    (∀ j, b ≤ j → j < row.length → (softmaxRow Real.exp row b).getD j 0 = 0)
    ∧ ∃ M, (∀ j, j < b → row.getD j 0 ≤ M)
        ∧ (∃ j0, j0 < b ∧ row.getD j0 0 = M)
        ∧ (∀ j, j < b → (softmaxRow Real.exp row b).getD j 0
            = Real.exp (row.getD j 0 - M)
              / ∑ k ∈ Finset.range b, Real.exp (row.getD k 0 - M))
        ∧ (∑ j ∈ Finset.range b, (softmaxRow Real.exp row b).getD j 0) = 1 := by
  have hPlen : (row.take b).length = b := by
    rw [List.length_take]; omega
  have hstep : (fun (acc c : ℝ) => if acc < c then c else acc)
      = fun acc c => max acc c := by
    funext acc c; exact step_eq_max acc c
  have hPget : ∀ j, j < b → (row.take b).getD j 0 = row.getD j 0 := by
    intro j hj
    rw [List.getD, List.getD, List.get?_take hj]
  obtain ⟨hm1, hm2, hm3⟩ := foldl_max_facts (row.take b) (row.headD 0)
  have hmrw : (row.take b).foldl (fun acc c => if acc < c then c else acc) (row.headD 0)
      = (row.take b).foldl max (row.headD 0) := by rw [hstep]
  set M := (row.take b).foldl max (row.headD 0) with hMdef
  have hhead : row.headD 0 = row.getD 0 0 := by
    cases row with
    | nil => simp at hbl; omega
    | cons x xs => rfl
  have hMb : ∀ j, j < b → row.getD j 0 ≤ M := by
    intro j hj
    rw [← hPget j hj]
    apply hm2
    have hjP : j < (row.take b).length := by omega
    have := List.getD_eq_getElem (row.take b) 0 hjP
    rw [this]
    exact List.getElem_mem _
  have hMat : ∃ j0, j0 < b ∧ row.getD j0 0 = M := by
    rcases hm3 with h | h
    · exact ⟨0, by omega, by rw [← hhead, h]⟩
    · obtain ⟨n, hn⟩ := List.mem_iff_get?.mp h
      have hnlt : n < b := by
        by_contra hc
        rw [List.get?_eq_getElem?, List.getElem?_eq_none_iff.mpr (by omega)] at hn
        cases hn
      refine ⟨n, hnlt, ?_⟩
      rw [← hPget n hnlt, List.getD, hn]
      rfl
  -- the running sum equals the Finset sum
  have hsum : ((row.take b).map (fun v => Real.exp (v - M))).foldl (· + ·) 0
      = ∑ k ∈ Finset.range b, Real.exp (row.getD k 0 - M) := by
    rw [foldl_add_init, zero_add,
      map_sum_eq_range_sum ((row.take b)) (fun v => Real.exp (v - M)) 0, hPlen]
    exact Finset.sum_congr rfl (fun k hk => by
      rw [hPget k (Finset.mem_range.mp hk)])
  have hSpos : 0 < ∑ k ∈ Finset.range b, Real.exp (row.getD k 0 - M) := by
    apply Finset.sum_pos
    · intro k _
      exact Real.exp_pos _
    · exact Finset.nonempty_range_iff.mpr (by omega)
  have hout : softmaxRow Real.exp row b
      = ((row.take b).map (fun v => Real.exp (v - M))).map
          (fun v => v / ∑ k ∈ Finset.range b, Real.exp (row.getD k 0 - M))
        ++ List.replicate (row.length - b) 0 := by
    simp only [softmaxRow]
    rw [hmrw]
    simp only [hsum]
  have hexplen : (((row.take b).map (fun v => Real.exp (v - M))).map
      (fun v => v / ∑ k ∈ Finset.range b, Real.exp (row.getD k 0 - M))).length = b := by
    simp only [List.length_map, hPlen]
  have hval : ∀ j, j < b → (softmaxRow Real.exp row b).getD j 0
      = Real.exp (row.getD j 0 - M)
        / ∑ k ∈ Finset.range b, Real.exp (row.getD k 0 - M) := by
    intro j hj
    rw [hout, List.getD_append _ _ 0 j (by omega)]
    rw [getD_map_lt _ _ j (by simp [hPlen]; omega) 0 0]
    rw [getD_map_lt _ _ j (by omega : j < (row.take b).length) 0 0]
    rw [hPget j hj]
  refine ⟨?_, M, hMb, hMat, hval, ?_⟩
  · intro j hj1 hj2
    rw [hout, List.getD_append_right _ _ 0 j (by omega)]
    rw [hexplen]
    exact getD_replicate_self _ _ 0
  · rw [Finset.sum_congr rfl (fun j hj => hval j (Finset.mem_range.mp hj))]
    rw [← Finset.sum_div]
    exact div_self (ne_of_gt hSpos)

end LMGo

namespace LMGo

/-- General row-by-row behaviour of `MaskedSoftmax` over ℝ on a tensor of
shape ds ++ [s, n] with 1 ≤ s ≤ n: every batch row gets the shifted
softmax on its valid prefix (boundary n-s+i+1) and exact zeros beyond. -/
theorem maskedSoftmax_rows (ds : List Nat) (s n B : Nat) (t : Tensor ℝ)
    (hshape : t.shape = ds ++ [s, n])
    (hs1 : 1 ≤ s) (hsn : s ≤ n)
    (hwf : t.data.length = t.length)
    (hlen : t.length = B * (s * n)) :
    ∃ t2, MaskedSoftmax Real.exp t = some t2
      ∧ t2.shape = t.shape ∧ t2.length = t.length
      ∧ t2.data.length = t.data.length
      ∧ ∀ bi i, bi < B → i < s →
          (∀ j, n - s + i + 1 ≤ j → j < n →
              t2.data.getD (bi * (s * n) + i * n + j) 0 = 0)
          ∧ (∃ M, (∀ j, j < n - s + i + 1 →
                t.data.getD (bi * (s * n) + i * n + j) 0 ≤ M)
              ∧ (∃ j0, j0 < n - s + i + 1 ∧
                  t.data.getD (bi * (s * n) + i * n + j0) 0 = M)
              ∧ (∀ j, j < n - s + i + 1 →
                  t2.data.getD (bi * (s * n) + i * n + j) 0
                    = Real.exp (t.data.getD (bi * (s * n) + i * n + j) 0 - M)
                      / ∑ k ∈ Finset.range (n - s + i + 1),
                          Real.exp (t.data.getD (bi * (s * n) + i * n + k) 0 - M)))
          ∧ (∑ j ∈ Finset.range (n - s + i + 1),
                t2.data.getD (bi * (s * n) + i * n + j) 0) = 1 := by
  have hnd : t.shape.length = ds.length + 2 := by rw [hshape]; simp
  have hgs : t.shape.getD (t.shape.length - 2) 0 = s := by
    rw [hshape]
    have h2 : (ds ++ [s, n]).length - 2 = ds.length := by simp
    rw [h2, List.getD_append_right ds [s, n] 0 ds.length (le_refl _)]
    simp
  have hgn : t.shape.getD (t.shape.length - 1) 0 = n := by
    rw [hshape]
    have h2 : (ds ++ [s, n]).length - 1 = ds.length + 1 := by simp
    rw [h2, List.getD_append_right ds [s, n] 0 (ds.length + 1) (by omega)]
    simp
  have hsn0 : 0 < s * n := Nat.mul_pos (by omega) (by omega)
  have hBdiv : t.length / (s * n) = B := by
    rw [hlen]; exact Nat.mul_div_cancel B hsn0
  have hdlen : t.data.length = B * (s * n) := by omega
  -- chunk and row lengths
  have hchunklen : ∀ bi, bi < B →
      ((t.data.drop (bi * (s * n))).take (s * n)).length = s * n := by
    intro bi hbi
    have hmul : (bi + 1) * (s * n) ≤ B * (s * n) :=
      Nat.mul_le_mul_right _ (by omega)
    simp only [List.length_take, List.length_drop]
    have : (bi + 1) * (s * n) = bi * (s * n) + s * n := by ring
    omega
  have hPBlen : ∀ bi, bi < B →
      (processBatch Real.exp s n ((t.data.drop (bi * (s * n))).take (s * n))).length
        = s * n := by
    intro bi hbi
    apply length_bind_const
    intro i hi
    rw [softmaxRow_length]
    · have hmul : (i + 1) * n ≤ s * n := Nat.mul_le_mul_right _ (by omega)
      simp only [List.length_take, List.length_drop, hchunklen bi hbi]
      have : (i + 1) * n = i * n + n := by ring
      omega
    · have hmul : (i + 1) * n ≤ s * n := Nat.mul_le_mul_right _ (by omega)
      simp only [List.length_take, List.length_drop, hchunklen bi hbi]
      simp only [rowBoundary]
      have : (i + 1) * n = i * n + n := by ring
      omega
  have hdropnil : t.data.drop (B * (s * n)) = [] :=
    List.drop_eq_nil_of_le (by omega)
  -- row contents
  have hrowget : ∀ bi i j, bi < B → i < s → j < n →
      ((((t.data.drop (bi * (s * n))).take (s * n)).drop (i * n)).take n).getD j 0
        = t.data.getD (bi * (s * n) + i * n + j) 0 := by
    intro bi i j hbi hi hj
    have hij : i * n + j < s * n := by
      have : (i + 1) * n ≤ s * n := Nat.mul_le_mul_right _ (by omega)
      nlinarith
    rw [List.getD, List.getD, List.get?_take hj, List.get?_drop,
      List.get?_take hij, List.get?_drop]
    have : bi * (s * n) + (i * n + j) = bi * (s * n) + i * n + j := by ring
    rw [this]
  -- access into the rebuilt data
  have key : ∀ bi i j, bi < B → i < s → j < n →
      (((List.range B).flatMap (fun bi =>
          processBatch Real.exp s n ((t.data.drop (bi * (s * n))).take (s * n))))
        ++ t.data.drop (B * (s * n))).getD (bi * (s * n) + i * n + j) 0
      = (softmaxRow Real.exp
          ((((t.data.drop (bi * (s * n))).take (s * n)).drop (i * n)).take n)
          (n - s + i + 1)).getD j 0 := by
    intro bi i j hbi hi hj
    rw [hdropnil, List.append_nil]
    have e1 : bi * (s * n) + i * n + j = bi * (s * n) + (i * n + j) := by ring
    have hij : i * n + j < s * n := by
      have : (i + 1) * n ≤ s * n := Nat.mul_le_mul_right _ (by omega)
      nlinarith
    rw [e1, getD_bind_const B (s * n) _ hPBlen bi (i * n + j) hbi hij 0]
    show ((List.range s).flatMap (fun i2 =>
        softmaxRow Real.exp
          ((((t.data.drop (bi * (s * n))).take (s * n)).drop (i2 * n)).take n)
          (rowBoundary s n i2))).getD (i * n + j) 0 = _
    have hrows : ∀ i2, i2 < s →
        (softmaxRow Real.exp
          ((((t.data.drop (bi * (s * n))).take (s * n)).drop (i2 * n)).take n)
          (rowBoundary s n i2)).length = n := by
      intro i2 hi2
      rw [softmaxRow_length]
      · have hmul : (i2 + 1) * n ≤ s * n := Nat.mul_le_mul_right _ (by omega)
        simp only [List.length_take, List.length_drop, hchunklen bi hbi]
        have : (i2 + 1) * n = i2 * n + n := by ring
        omega
      · have hmul : (i2 + 1) * n ≤ s * n := Nat.mul_le_mul_right _ (by omega)
        simp only [List.length_take, List.length_drop, hchunklen bi hbi]
        simp only [rowBoundary]
        have : (i2 + 1) * n = i2 * n + n := by ring
        omega
    rw [getD_bind_const s n _ hrows i j hi hj 0]
    simp only [rowBoundary]
  -- run the per-row spec
  simp only [MaskedSoftmax]
  rw [hgs, hgn]
  rw [if_neg (by omega), if_neg (by omega), if_neg (by omega), hBdiv]
  refine ⟨_, rfl, rfl, rfl, ?_, ?_⟩
  · simp only [Tensor.mk.injEq]
    rw [List.length_append, length_bind_const B (s * n) _ hPBlen, hdropnil]
    simp
    omega
  · intro bi i hbi hi
    have hb1 : 1 ≤ n - s + i + 1 := by omega
    have hble : n - s + i + 1 ≤ n := by omega
    have hrowlen :
        (((((t.data.drop (bi * (s * n))).take (s * n)).drop (i * n)).take n)).length
          = n := by
      have hmul : (i + 1) * n ≤ s * n := Nat.mul_le_mul_right _ (by omega)
      simp only [List.length_take, List.length_drop, hchunklen bi hbi]
      have : (i + 1) * n = i * n + n := by ring
      omega
    obtain ⟨hz, M, hMb, hMat, hval, hsum1⟩ :=
      softmaxRow_spec ((((t.data.drop (bi * (s * n))).take (s * n)).drop (i * n)).take n)
        (n - s + i + 1) hb1 (by omega)
    refine ⟨?_, ⟨M, ?_, ?_, ?_⟩, ?_⟩
    · intro j hj1 hj2
      rw [key bi i j hbi hi hj2]
      exact hz j hj1 (by omega)
    · intro j hj
      rw [← hrowget bi i j hbi hi (by omega)]
      exact hMb j hj
    · obtain ⟨j0, hj0, hj0v⟩ := hMat
      refine ⟨j0, hj0, ?_⟩
      rw [← hrowget bi i j0 hbi hi (by omega)]
      exact hj0v
    · intro j hj
      rw [key bi i j hbi hi (by omega), hval j hj,
        hrowget bi i j hbi hi (by omega)]
      congr 1
      apply Finset.sum_congr rfl
      intro k hk
      have hk2 : k < n - s + i + 1 := Finset.mem_range.mp hk
      rw [hrowget bi i k hbi hi (by omega)]
    · rw [Finset.sum_congr rfl (fun j hj => key bi i j hbi hi
        (by have := Finset.mem_range.mp hj; omega))]
      exact hsum1

end LMGo

namespace LMGo

theorem softmaxRow_ex0 : softmaxRow Real.exp [(1:ℝ), 1, 1] 1 = [1, 0, 0] := by
  norm_num [softmaxRow, Real.exp_zero, List.replicate_succ]

theorem softmaxRow_ex1 : softmaxRow Real.exp [(1:ℝ), -1, 0] 2
    = [1 / (1 + Real.exp (-2)), Real.exp (-2) / (1 + Real.exp (-2)), 0] := by
  norm_num [softmaxRow, Real.exp_zero]

theorem softmaxRow_ex2 : softmaxRow Real.exp [(1:ℝ), 2, 3] 3
    = [Real.exp (-2) / (Real.exp (-2) + Real.exp (-1) + 1),
       Real.exp (-1) / (Real.exp (-2) + Real.exp (-1) + 1),
       1 / (Real.exp (-2) + Real.exp (-1) + 1)] := by
  norm_num [softmaxRow, Real.exp_zero]

theorem maskedSoftmax_example_assemble :
    MaskedSoftmax Real.exp (⟨[1, 1, 1, 1, -1, 0, 1, 2, 3], [3, 3], 9⟩ : Tensor ℝ)
      = some ⟨softmaxRow Real.exp [(1:ℝ), 1, 1] 1
          ++ (softmaxRow Real.exp [(1:ℝ), -1, 0] 2
          ++ (softmaxRow Real.exp [(1:ℝ), 2, 3] 3 ++ [])) ++ [], [3, 3], 9⟩ := rfl

end LMGo

namespace LMGo

theorem exp_neg_two_bounds :
    (0.1353352830 : ℝ) < Real.exp (-2) ∧ Real.exp (-2 : ℝ) < 0.1353352834 := by
  have hE1 : (2.7182818283 : ℝ) < Real.exp 1 := Real.exp_one_gt_d9
  have hE2 : Real.exp 1 < 2.7182818286 := Real.exp_one_lt_d9
  have hEpos : (0:ℝ) < Real.exp 1 := Real.exp_pos 1
  have hEE1 : (7.3890560980 : ℝ) < Real.exp 1 * Real.exp 1 := by nlinarith
  have hEE2 : Real.exp 1 * Real.exp 1 < 7.3890560998 := by nlinarith
  have he2eq : Real.exp (-2 : ℝ) = (Real.exp 1 * Real.exp 1)⁻¹ := by
    rw [show (-2:ℝ) = -(1+1) by norm_num, Real.exp_neg, Real.exp_add]
  have he2pos : (0:ℝ) < Real.exp (-2 : ℝ) := Real.exp_pos _
  have hmulinv : Real.exp (-2:ℝ) * (Real.exp 1 * Real.exp 1) = 1 := by
    rw [he2eq]
    exact inv_mul_cancel₀ (by positivity)
  constructor
  · nlinarith
  · nlinarith

theorem exp_neg_one_bounds :
    (0.3678794410 : ℝ) < Real.exp (-1) ∧ Real.exp (-1 : ℝ) < 0.3678794413 := by
  have hE1 : (2.7182818283 : ℝ) < Real.exp 1 := Real.exp_one_gt_d9
  have hE2 : Real.exp 1 < 2.7182818286 := Real.exp_one_lt_d9
  have he1eq : Real.exp (-1 : ℝ) = (Real.exp 1)⁻¹ := Real.exp_neg 1
  have he1pos : (0:ℝ) < Real.exp (-1 : ℝ) := Real.exp_pos _
  have hmulinv : Real.exp (-1:ℝ) * Real.exp 1 = 1 := by
    rw [he1eq]
    exact inv_mul_cancel₀ (by positivity)
  constructor
  · nlinarith
  · nlinarith

/-- The spec's concrete example: `MaskedSoftmax` on [[1,1,1],[1,-1,0],[1,2,3]]
with seqLen = totalSeqLen = 3 gives row 0 = [1,0,0], row 1 ≈ [0.8808,
0.1192, 0], row 2 ≈ [0.0900, 0.2447, 0.6652]. -/
theorem maskedSoftmax_example :
    ∃ t4, MaskedSoftmax Real.exp
        (⟨[1, 1, 1, 1, -1, 0, 1, 2, 3], [3, 3], 9⟩ : Tensor ℝ) = some t4
      ∧ t4.data.getD 0 0 = 1 ∧ t4.data.getD 1 0 = 0 ∧ t4.data.getD 2 0 = 0
      ∧ |t4.data.getD 3 0 - 0.8808| < 0.0001
      ∧ |t4.data.getD 4 0 - 0.1192| < 0.0001
      ∧ t4.data.getD 5 0 = 0
      ∧ |t4.data.getD 6 0 - 0.0900| < 0.0001
      ∧ |t4.data.getD 7 0 - 0.2447| < 0.0001
      ∧ |t4.data.getD 8 0 - 0.6652| < 0.0001 := by
  have hasm := maskedSoftmax_example_assemble
  rw [softmaxRow_ex0, softmaxRow_ex1, softmaxRow_ex2] at hasm
  obtain ⟨h3, h4⟩ := exp_neg_two_bounds
  obtain ⟨h1, h2⟩ := exp_neg_one_bounds
  have hd1 : (0:ℝ) < 1 + Real.exp (-2) := by linarith
  have hd2 : (0:ℝ) < Real.exp (-2) + Real.exp (-1) + 1 := by linarith
  have hv3 : (1 / (1 + Real.exp (-2:ℝ))) * (1 + Real.exp (-2)) = 1 :=
    div_mul_cancel₀ 1 (ne_of_gt hd1)
  have hv4 : (Real.exp (-2:ℝ) / (1 + Real.exp (-2))) * (1 + Real.exp (-2))
      = Real.exp (-2) := div_mul_cancel₀ _ (ne_of_gt hd1)
  have hv6 : (Real.exp (-2:ℝ) / (Real.exp (-2) + Real.exp (-1) + 1))
      * (Real.exp (-2) + Real.exp (-1) + 1) = Real.exp (-2) :=
    div_mul_cancel₀ _ (ne_of_gt hd2)
  have hv7 : (Real.exp (-1:ℝ) / (Real.exp (-2) + Real.exp (-1) + 1))
      * (Real.exp (-2) + Real.exp (-1) + 1) = Real.exp (-1) :=
    div_mul_cancel₀ _ (ne_of_gt hd2)
  have hv8 : (1 / (Real.exp (-2:ℝ) + Real.exp (-1) + 1))
      * (Real.exp (-2) + Real.exp (-1) + 1) = 1 :=
    div_mul_cancel₀ 1 (ne_of_gt hd2)
  refine ⟨_, hasm, rfl, rfl, rfl, ?_, ?_, rfl, ?_, ?_, ?_⟩
  · show |1 / (1 + Real.exp (-2:ℝ)) - 0.8808| < 0.0001
    rw [abs_lt]
    constructor <;> nlinarith
  · show |Real.exp (-2:ℝ) / (1 + Real.exp (-2)) - 0.1192| < 0.0001
    rw [abs_lt]
    constructor <;> nlinarith
  · show |Real.exp (-2:ℝ) / (Real.exp (-2) + Real.exp (-1) + 1) - 0.0900| < 0.0001
    rw [abs_lt]
    constructor <;> nlinarith
  · show |Real.exp (-1:ℝ) / (Real.exp (-2) + Real.exp (-1) + 1) - 0.2447| < 0.0001
    rw [abs_lt]
    constructor <;> nlinarith
  · show |1 / (Real.exp (-2:ℝ) + Real.exp (-1) + 1) - 0.6652| < 0.0001
    rw [abs_lt]
    constructor <;> nlinarith

end LMGo

namespace LMGo

/-- C3 counterexample: a tensor whose last two dimensions are [0, 3]
(seqLen 0 ≤ totalSeqLen 3, no rows, empty buffer) is in the claim's domain
and should be returned unchanged, but the Go code divides by
`seqLen*totalSeqLen = 0` when computing the batch count and panics. -/
theorem C3_zero_seqlen_cex :
    MaskedSoftmax (α := ℚ) (fun v => v) ⟨[], [0, 3], 0⟩ = none
    ∧ (0 : Nat) ≤ 3 := ⟨rfl, by decide⟩

/-- C3 (amended): for every tensor whose last two dimensions are
[seqLen, totalSeqLen] with 1 ≤ seqLen ≤ totalSeqLen (seqLen = 0 aborts on
a division by zero), `MaskedSoftmax` rewrites each batch row i so that the
columns beyond boundary = totalSeqLen − seqLen + i + 1 are exactly zero and
the valid prefix carries the numerically stable softmax of the original
values — exp of value minus the row maximum, normalized by the sum, the
prefix summing to 1 — and the spec's 3×3 example evaluates to
[1,0,0 / ≈0.8808,≈0.1192,0 / ≈0.0900,≈0.2447,≈0.6652]. -/
theorem C3_masked_softmax (ds : List Nat) (s n B : Nat) (t : Tensor ℝ)
    (hshape : t.shape = ds ++ [s, n])
    (hs1 : 1 ≤ s) (hsn : s ≤ n)
    (hwf : t.data.length = t.length)
    (hlen : t.length = B * (s * n)) :
    (∃ t2, MaskedSoftmax Real.exp t = some t2
      ∧ t2.shape = t.shape ∧ t2.length = t.length
      ∧ t2.data.length = t.data.length
      ∧ ∀ bi i, bi < B → i < s →
          (∀ j, n - s + i + 1 ≤ j → j < n →
              t2.data.getD (bi * (s * n) + i * n + j) 0 = 0)
          ∧ (∃ M, (∀ j, j < n - s + i + 1 →
                t.data.getD (bi * (s * n) + i * n + j) 0 ≤ M)
              ∧ (∃ j0, j0 < n - s + i + 1 ∧
                  t.data.getD (bi * (s * n) + i * n + j0) 0 = M)
              ∧ (∀ j, j < n - s + i + 1 →
                  t2.data.getD (bi * (s * n) + i * n + j) 0
                    = Real.exp (t.data.getD (bi * (s * n) + i * n + j) 0 - M)
                      / ∑ k ∈ Finset.range (n - s + i + 1),
                          Real.exp (t.data.getD (bi * (s * n) + i * n + k) 0 - M)))
          ∧ (∑ j ∈ Finset.range (n - s + i + 1),
                t2.data.getD (bi * (s * n) + i * n + j) 0) = 1)
    ∧ (∃ t4, MaskedSoftmax Real.exp
        (⟨[1, 1, 1, 1, -1, 0, 1, 2, 3], [3, 3], 9⟩ : Tensor ℝ) = some t4
      ∧ t4.data.getD 0 0 = 1 ∧ t4.data.getD 1 0 = 0 ∧ t4.data.getD 2 0 = 0
      ∧ |t4.data.getD 3 0 - 0.8808| < 0.0001
      ∧ |t4.data.getD 4 0 - 0.1192| < 0.0001
      ∧ t4.data.getD 5 0 = 0
      ∧ |t4.data.getD 6 0 - 0.0900| < 0.0001
      ∧ |t4.data.getD 7 0 - 0.2447| < 0.0001
      ∧ |t4.data.getD 8 0 - 0.6652| < 0.0001) :=
  ⟨maskedSoftmax_rows ds s n B t hshape hs1 hsn hwf hlen, maskedSoftmax_example⟩

/-- Witness for C3 at the spec's 3×3 example tensor (one batch). -/
theorem C3_masked_softmax_witness :
    (∃ t2, MaskedSoftmax Real.exp
        (⟨[1, 1, 1, 1, -1, 0, 1, 2, 3], [3, 3], 9⟩ : Tensor ℝ) = some t2
      ∧ t2.shape = (⟨[1, 1, 1, 1, -1, 0, 1, 2, 3], [3, 3], 9⟩ : Tensor ℝ).shape
      ∧ t2.length = (⟨[1, 1, 1, 1, -1, 0, 1, 2, 3], [3, 3], 9⟩ : Tensor ℝ).length
      ∧ t2.data.length
          = (⟨[1, 1, 1, 1, -1, 0, 1, 2, 3], [3, 3], 9⟩ : Tensor ℝ).data.length
      ∧ ∀ bi i, bi < 1 → i < 3 →
          (∀ j, 3 - 3 + i + 1 ≤ j → j < 3 →
              t2.data.getD (bi * (3 * 3) + i * 3 + j) 0 = 0)
          ∧ (∃ M, (∀ j, j < 3 - 3 + i + 1 →
                (⟨[1, 1, 1, 1, -1, 0, 1, 2, 3], [3, 3], 9⟩ : Tensor ℝ).data.getD
                  (bi * (3 * 3) + i * 3 + j) 0 ≤ M)
              ∧ (∃ j0, j0 < 3 - 3 + i + 1 ∧
                  (⟨[1, 1, 1, 1, -1, 0, 1, 2, 3], [3, 3], 9⟩ : Tensor ℝ).data.getD
                    (bi * (3 * 3) + i * 3 + j0) 0 = M)
              ∧ (∀ j, j < 3 - 3 + i + 1 →
                  t2.data.getD (bi * (3 * 3) + i * 3 + j) 0
                    = Real.exp
                        ((⟨[1, 1, 1, 1, -1, 0, 1, 2, 3], [3, 3], 9⟩ : Tensor ℝ).data.getD
                          (bi * (3 * 3) + i * 3 + j) 0 - M)
                      / ∑ k ∈ Finset.range (3 - 3 + i + 1),
                          Real.exp
                            ((⟨[1, 1, 1, 1, -1, 0, 1, 2, 3], [3, 3], 9⟩ : Tensor ℝ).data.getD
                              (bi * (3 * 3) + i * 3 + k) 0 - M)))
          ∧ (∑ j ∈ Finset.range (3 - 3 + i + 1),
                t2.data.getD (bi * (3 * 3) + i * 3 + j) 0) = 1)
    ∧ (∃ t4, MaskedSoftmax Real.exp
        (⟨[1, 1, 1, 1, -1, 0, 1, 2, 3], [3, 3], 9⟩ : Tensor ℝ) = some t4
      ∧ t4.data.getD 0 0 = 1 ∧ t4.data.getD 1 0 = 0 ∧ t4.data.getD 2 0 = 0
      ∧ |t4.data.getD 3 0 - 0.8808| < 0.0001
      ∧ |t4.data.getD 4 0 - 0.1192| < 0.0001
      ∧ t4.data.getD 5 0 = 0
      ∧ |t4.data.getD 6 0 - 0.0900| < 0.0001
      ∧ |t4.data.getD 7 0 - 0.2447| < 0.0001
      ∧ |t4.data.getD 8 0 - 0.6652| < 0.0001) :=
  C3_masked_softmax [] 3 3 1 ⟨[1, 1, 1, 1, -1, 0, 1, 2, 3], [3, 3], 9⟩
    rfl (by decide) (by decide) rfl (by decide)

end LMGo
